import Mathlib

/-!
# Verification of the GQCP Fock-space addressing and CI Hamiltonian core

This file gives a shallow embedding of the combinatorial core of the GQCP
repository (Fock-space addressing, ONV bit manipulation, the DOCI Hamiltonian
builder, the Davidson solver contracts, frozen-core decoration and the
selected Fock space), together with theorems about the embedded definitions.

Machine integers (`size_t`, 64-bit) are modelled as `Nat` with explicit
wrap-around `% 2^64` at the arithmetic operations where the source performs
unsigned machine arithmetic.  Floating-point `double` values are modelled as
exact rationals `ℚ`: the claims settled here are about the algebraic structure
of the computations (which additions are performed at which indices), not
about rounding.
-/

namespace GQCP

/-- Number of values of a 64-bit machine word (`size_t` on the target platform). -/
def word64 : Nat := 2 ^ 64

/-- Unsigned 64-bit addition (wrap-around), as performed on `size_t`. -/
def add64 (a b : Nat) : Nat := (a + b) % word64

/-- Unsigned 64-bit subtraction (two's-complement wrap-around), as performed
on `size_t`: `a - b` modulo `2^64`. -/
def sub64 (a b : Nat) : Nat := (a + (word64 - b % word64)) % word64

/-- Count of trailing zero bits: embeds `__builtin_ctzl` (which the source only
calls on nonzero words; we return 0 at 0). -/
def ctz (n : Nat) : Nat :=
  if h : n % 2 = 1 ∨ n = 0 then 0
  else ctz (n / 2) + 1
termination_by n
decreasing_by
  exact Nat.div_lt_self (Nat.pos_of_ne_zero (fun hz => h (Or.inr hz))) (by norm_num)

/-- Number of set bits of a natural number (embeds `__builtin_popcountll`). -/
def popCount (x : Nat) : Nat :=
  if x = 0 then 0 else x % 2 + popCount (x / 2)
termination_by x
decreasing_by
  rename_i h
  exact Nat.div_lt_self (Nat.pos_of_ne_zero h) (by norm_num)

/-- The positions of the set bits of a word, in ascending order: repeatedly
take the least significant set bit (`__builtin_ctzl`) and clear it
(`x ^= x & -x`, i.e. subtract `2 ^ ctz x`).  This is exactly how
`ONV::updateOccupationIndices` fills `occupation_indices` (modelled from the
spec: the ordered sequence of occupied orbital indices, ascending). -/
def bitIndices (x : Nat) : List Nat :=
  if h : x = 0 then []
  else ctz x :: bitIndices (x - 2 ^ ctz x)
termination_by x
decreasing_by
  exact Nat.sub_lt (Nat.pos_of_ne_zero h) (Nat.pos_pow_of_pos _ (by norm_num))

/-- Rebuild a word from a list of bit positions (used to reason about the
ONV bit patterns; `2^a ||| …` mirrors the `representation |= …` writes). -/
def ofBits (l : List Nat) : Nat := l.foldr (fun a r => 2 ^ a ||| r) 0

/-- The vertex-weight table of `FockSpace::FockSpace(K, N)`.

The constructor builds a `(K+1) × (N+1)` zero matrix, sets
`vertex_weights[p][0] = 1` for `p < K - N + 1`, and then fills, for each
`m = 1 .. N` and `p = m .. K - N + m`,
`vertex_weights[p][m] = vertex_weights[p-1][m] + vertex_weights[p-1][m-1]`.
Since each entry written only depends on already-final entries of the
previous row, the finished table is exactly the following recurrence. -/
def vertexWeight (K N : Nat) : Nat → Nat → Nat
  | p, 0 => if p ≤ K - N then 1 else 0
  | p, m + 1 =>
    if m + 1 ≤ p ∧ p ≤ K - N + (m + 1) then
      vertexWeight K N (p - 1) (m + 1) + vertexWeight K N (p - 1) m
    else 0
termination_by p _ => p
decreasing_by
  all_goals exact Nat.sub_lt (Nat.lt_of_lt_of_le (Nat.succ_pos m) (by omega)) Nat.one_pos

/-- Embeds `FockSpace::calculateDimension`.  The source computes
`boost::math::binomial_coefficient<double>(K, N)` and converts the `double`
to `size_t`.  We model the returned value as the exact binomial coefficient
`C(K, N)`; the floating-point rounding/overflow behaviour of the boost
computation itself is deliberately not modelled (see claim C4, which is about
precisely that behaviour). -/
def calculateDimension (K N : Nat) : Nat := Nat.choose K N

/-- The loop of `FockSpace::getAddress`: while bits remain, take the least
significant set bit `p = ctz onv`, increment the electron count, add the
vertex weight `W(p, electron_count)` to the running address (a `size_t`
addition), and clear the bit (`onv ^= onv & -onv`, i.e. subtract `2^p`). -/
def getAddressLoop (K N : Nat) (onv ec addr : Nat) : Nat :=
  if h : onv = 0 then addr
  else
    getAddressLoop K N (onv - 2 ^ ctz onv) (ec + 1)
      (add64 addr (vertexWeight K N (ctz onv) (ec + 1)))
termination_by onv
decreasing_by
  exact Nat.sub_lt (Nat.pos_of_ne_zero h) (Nat.pos_pow_of_pos _ (by norm_num))

/-- Embeds `FockSpace::getAddress` on the unsigned representation of an ONV. -/
def getAddress (K N : Nat) (onv : Nat) : Nat := getAddressLoop K N onv 0 0

/-- The loop of `FockSpace::calculateRepresentation`: `p` runs from `K` down
to `1`; at loop counter `p+1` the examined weight is `W(p, m)`; if it is
`≤ address` the orbital `p` is marked occupied (`representation |= 1 << p`;
the source writes the shift with an `int` literal `1` — the intended `1UL`
semantics `2^p` is used here, cf. claim C1), the weight is subtracted and `m`
is decremented, breaking out of the loop when `m` reaches 0. -/
def calcRepLoop (K N : Nat) : Nat → Nat → Nat → Nat → Nat
  | 0, _, _, rep => rep
  | p + 1, addr, m, rep =>
    if vertexWeight K N p m ≤ addr then
      (if m - 1 = 0 then rep ||| 2 ^ p
       else calcRepLoop K N p (addr - vertexWeight K N p m) (m - 1) (rep ||| 2 ^ p))
    else calcRepLoop K N p addr m rep
termination_by p _ _ _ => p

/-- Embeds `FockSpace::calculateRepresentation`: the unsigned representation stored
at the given address (returns 0 when `N = 0`). -/
def calculateRepresentation (K N : Nat) (address : Nat) : Nat :=
  if N = 0 then 0 else calcRepLoop K N K address N 0

/-- Embeds `FockSpace::ulongNextPermutation`: the standard next-bit-permutation
trick, with all arithmetic on 64-bit unsigned words.
`t = rep | (rep - 1)` sets the trailing zeros; the result is
`(t+1) | (((~t & (t+1)) - 1) >> (ctz rep + 1))`.  The complement `~t` on a
64-bit word with `t < 2^64` is `2^64 - 1 - t`. -/
def ulongNextPermutation (rep : Nat) : Nat :=
  let t := rep ||| sub64 rep 1
  let tp1 := add64 t 1
  tp1 ||| (sub64 ((word64 - 1 - t) &&& tp1) 1 >>> (ctz rep + 1))

/-! ### Matrices, vectors and exceptions -/

/-- Dense matrices of the CI code (`double` entries modelled as exact
rationals), as total functions on unbounded indices; entries at indices `≥ dim`
are irrelevant padding. -/
abbrev Mat : Type := Nat → Nat → ℚ

/-- Coefficient vectors of the CI code, modelled like `Mat`. -/
abbrev Vec : Type := Nat → ℚ

/-- The C++ standard exception classes thrown by the modelled code.
`std::invalid_argument` derives from `std::logic_error`; `std::runtime_error`
is used for computational failures (non-convergence). -/
inductive CppError where
  | invalidArgument : String → CppError
  | logicError : String → CppError
  | runtimeError : String → CppError
deriving DecidableEq

/-- Whether a thrown exception is (an instance of a subclass of)
`std::logic_error`. -/
def CppError.isLogicError : CppError → Bool
  | .invalidArgument _ => true
  | .logicError _ => true
  | .runtimeError _ => false

/-- Whether a thrown exception is (an instance of a subclass of)
`std::runtime_error`. -/
def CppError.isRuntimeError : CppError → Bool
  | .runtimeError _ => true
  | _ => false

/-! ### Davidson solver: construction contract, result accessors,
preconditioner step -/

/-- The constructor arguments of `DavidsonSolver` that take part in its
construction contract. -/
structure DavidsonSolverSpec where
  V0cols : Nat
  requested : Nat
  collapsedDim : Nat
  maximumDim : Nat

/-- Embeds the validation performed by the main `DavidsonSolver` constructor
(in order): `V_0.cols() < number_of_requested_eigenpairs`,
`collapsed_subspace_dimension < number_of_requested_eigenpairs` and
`collapsed_subspace_dimension >= maximum_subspace_dimension` each throw
`std::invalid_argument`; otherwise construction succeeds. -/
def davidsonConstructor (s : DavidsonSolverSpec) : Except CppError Unit :=
  if s.V0cols < s.requested then
    .error (.invalidArgument "You have to specify at least as many initial guesses as number of requested eigenpairs.")
  else if s.collapsedDim < s.requested then
    .error (.invalidArgument "The collapsed subspace dimension must be at least the number of requested eigenpairs.")
  else if s.maximumDim ≤ s.collapsedDim then
    .error (.invalidArgument "The collapsed subspace dimension must be smaller than the maximum subspace dimension.")
  else .ok ()

section DavidsonCorrection

open scoped Classical

/-- One entry of the Davidson correction vector of `DavidsonSolver::solve`
before normalization, exactly as the source computes it: with
`denominator = diagonal - Λᵢ·1`, the Eigen `select` keeps
`R(j) / |denominator(j)|` where `|denominator(j)| > correction_threshold` and
`R(j) / correction_threshold` elsewhere. -/
noncomputable def davidsonCorrectionEntry (diagonal : Nat → ℝ) (lam t : ℝ)
    (R : Nat → ℝ) (j : Nat) : ℝ :=
  if |diagonal j - lam| > t then R j / |diagonal j - lam| else R j / t

/-- Normalization of a length-`n` column to unit Euclidean norm
(`Eigen`'s `normalize()`: divide by the 2-norm). -/
noncomputable def vecNormalize (n : Nat) (v : Nat → ℝ) : Nat → ℝ :=
  fun j => v j / Real.sqrt (∑ i ∈ Finset.range n, v i ^ 2)

/-- The full Davidson correction column `Δᵢ` computed by
`DavidsonSolver::solve`: the `select`-based elementwise quotient, then
`normalize()`. -/
noncomputable def davidsonCorrectionColumn (n : Nat) (diagonal : Nat → ℝ)
    (lam t : ℝ) (R : Nat → ℝ) : Nat → ℝ :=
  vecNormalize n (davidsonCorrectionEntry diagonal lam t R)

end DavidsonCorrection

/-- An eigenpair (eigenvalue, eigenvector) as stored by the solvers. -/
structure Eigenpair where
  eigenvalue : ℚ
  eigenvector : Vec

/-- The result-holding state of `DOCINewtonOrbitalOptimizer`: the convergence
flag and the stored eigenpairs. -/
structure DOCINewtonOptimizerState where
  is_converged : Bool
  eigenpairs : List Eigenpair

/-- Embeds `DOCINewtonOrbitalOptimizer::get_eigenpairs`: throws
`std::logic_error` unless the optimization has converged. -/
def getEigenpairs (s : DOCINewtonOptimizerState) : Except CppError (List Eigenpair) :=
  if s.is_converged then .ok s.eigenpairs
  else .error (.logicError "You are trying to get eigenpairs but the orbital optimization has not converged (yet).")

/-- Embeds `DOCINewtonOrbitalOptimizer::get_eigenpair(index)`: throws
`std::logic_error` unless converged; the source indexes `eigenpairs[index]`
unchecked, which we model with a default value out of range. -/
def getEigenpair (s : DOCINewtonOptimizerState) (index : Nat) : Except CppError Eigenpair :=
  if s.is_converged then .ok (s.eigenpairs.getD index ⟨0, fun _ => 0⟩)
  else .error (.logicError "You are trying to get eigenpairs but the orbital optimization has not converged (yet).")

/-- The result-holding state of `DavidsonSolver` (the `_is_solved` flag lives
in `BaseEigenproblemSolver`). -/
structure DavidsonSolverState where
  is_solved : Bool
  number_of_iterations : Nat

/-- Embeds `DavidsonSolver::get_number_of_iterations`: throws
`std::invalid_argument` (a `std::logic_error` subclass) unless solved. -/
def getNumberOfIterations (s : DavidsonSolverState) : Except CppError Nat :=
  if s.is_solved then .ok s.number_of_iterations
  else .error (.invalidArgument "The Davidson has not converged (yet) and you are trying to get the number of iterations.")

/-! ### Selected Fock space -/

/-- A `Configuration`: one alpha and one beta ONV, stored by their unsigned
representations. -/
structure Configuration where
  alpha : Nat
  beta : Nat
deriving DecidableEq

/-- The state of a `SelectedFockSpace` object. -/
structure SelectedFockSpace where
  K : Nat
  N_alpha : Nat
  N_beta : Nat
  dim : Nat
  configurations : List Configuration
deriving DecidableEq

/-- Value (`to_ulong`) of a parsed `boost::dynamic_bitset`; the list is
indexed by bit position (the bitset string constructor reads the character
string right to left, so bit 0 is the last character). -/
def bitsetValue (l : List Bool) : Nat :=
  l.foldr (fun b acc => (if b then 1 else 0) + 2 * acc) 0

/-- Embeds `SelectedFockSpace::makeConfiguration(onv1, onv2)`: both parsed
bitsets must have exactly `K` bits and their set-bit counts must equal
`N_alpha` resp. `N_beta`; otherwise `std::invalid_argument` is thrown. -/
def makeConfiguration (s : SelectedFockSpace) (onv1 onv2 : List Bool) :
    Except CppError Configuration :=
  if onv1.length ≠ s.K ∨ onv2.length ≠ s.K then
    .error (.invalidArgument "Given string representations for ONVs are not compatible with the number of orbitals of the Fock space")
  else if onv1.count true ≠ s.N_alpha ∨ onv2.count true ≠ s.N_beta then
    .error (.invalidArgument "Given string representations for ONVs are not compatible with the number of orbitals of the Fock space")
  else .ok ⟨bitsetValue onv1, bitsetValue onv2⟩

/-- Embeds `SelectedFockSpace::addConfiguration(onv1, onv2)` as a state
transformer.  The source increments `this->dim` FIRST and only then calls
`makeConfiguration` (which may throw) and appends to `configurations`.  The
result is the pair (thrown exception or unit, state of the object after the
call). -/
def addConfiguration (s : SelectedFockSpace) (onv1 onv2 : List Bool) :
    Except CppError Unit × SelectedFockSpace :=
  let s1 : SelectedFockSpace := ⟨s.K, s.N_alpha, s.N_beta, s.dim + 1, s.configurations⟩
  match makeConfiguration s onv1 onv2 with
  | .error e => (.error e, s1)
  | .ok c => (.ok (), ⟨s1.K, s1.N_alpha, s1.N_beta, s1.dim, s1.configurations ++ [c]⟩)

/-! ### Frozen-core decoration -/

/-- Embeds `HamiltonianParameters<double>`: the overlap `S`, one-electron
integrals `h` (a `K×K` matrix), two-electron integrals `g` (a `K×K×K×K`
tensor in chemist's notation) and the total transformation `T`. -/
structure HamiltonianParameters where
  K : Nat
  S : Mat
  h : Mat
  g : Nat → Nat → Nat → Nat → ℚ
  T : Mat

/-- The correction added by `FrozenCoreCI::freezeHamiltonianParameters` to the
active-block one-electron integral `h(i, j)` (`K_active = K - X`), folding the
frozen-orbital two-electron contributions into the one-electron terms.  The
three branches mirror the three `h` updates of the source (`h(i,i)`, `h(i,j)`
with `i < j`, and `h(j,i)` with `i < j`, respectively). -/
def frozenHCorrection (par : HamiltonianParameters) (X : Nat) (i j : Nat) : ℚ :=
  if i < par.K - X ∧ j < par.K - X then
    (if i = j then
      ∑ l ∈ Finset.range X,
        (par.g (i+X) (i+X) l l + par.g l l (i+X) (i+X)
          - par.g (i+X) l l (i+X) / 2 - par.g l (i+X) (i+X) l / 2)
     else if i < j then
      ∑ l ∈ Finset.range X,
        (par.g (i+X) (j+X) l l + par.g l l (i+X) (j+X)
          - par.g (i+X) l l (j+X) / 2 - par.g l (j+X) (i+X) l / 2)
     else
      ∑ l ∈ Finset.range X,
        (par.g (i+X) (j+X) l l + par.g l l (i+X) (j+X)
          - par.g (i+X) l l (j+X) / 2 - par.g l (j+X) (i+X) l / 2))
  else 0

/-- Embeds `FrozenCoreCI::freezeHamiltonianParameters`: restrict all integral
blocks to the active orbitals `X .. K-1` (re-indexed from 0) and fold the
frozen-orbital contributions into the one-electron integrals. -/
def freezeHamiltonianParameters (par : HamiltonianParameters) (X : Nat) :
    HamiltonianParameters :=
  ⟨par.K - X,
   fun i j => par.S (i+X) (j+X),
   fun i j => par.h (i+X) (j+X) + frozenHCorrection par X i j,
   fun p q r s => par.g (p+X) (q+X) (r+X) (s+X),
   fun i j => par.T (i+X) (j+X)⟩

/-- The scalar `value` computed by `FrozenCoreCI::calculateFrozenCoreDiagonal`:
the closed-form energy of the doubly occupied frozen orbitals. -/
def frozenCoreValue (par : HamiltonianParameters) (X : Nat) : ℚ :=
  ∑ i ∈ Finset.range X,
    (2 * par.h i i + par.g i i i i
      + ∑ j ∈ Finset.Ico (i+1) X,
          (2 * par.g i i j j + 2 * par.g j j i i - par.g j i i j - par.g i j j i))

/-- Embeds `FrozenCoreCI::calculateFrozenCoreDiagonal`: the constant vector
`value * VectorX::Ones(dim)`. -/
def calculateFrozenCoreDiagonal (par : HamiltonianParameters) (X dimension : Nat) : Vec :=
  fun I => if I < dimension then frozenCoreValue par X else 0

/-- Embeds `FrozenCoreCI::constructHamiltonian`: freeze the parameters,
delegate to the wrapped active-space builder, then add the frozen-core
diagonal (`total_hamiltonian += frozen_core_diagonal.asDiagonal()`).  The
wrapped builder and the dimension of its Fock space are abstract parameters
(the source holds them through `active_hamiltonian_builder`). -/
def frozenCoreConstructHamiltonian (activeBuilder : HamiltonianParameters → Mat)
    (dimension X : Nat) (par : HamiltonianParameters) : Mat :=
  fun i j => activeBuilder (freezeHamiltonianParameters par X) i j
    + (if i = j ∧ i < dimension then calculateFrozenCoreDiagonal par X dimension i else 0)

/-! ### Fock-space addressing: specification-level address sums -/

/-- Sum of vertex weights along a list of orbital positions, the electron
index of the first entry being `c`:
`addrFrom c [q₁, q₂, …] = W(q₁, c) + W(q₂, c+1) + …`.  `getAddress` computes
`addrFrom 1` of the ascending set-bit positions. -/
def addrFrom (K N : Nat) : Nat → List Nat → Nat
  | _, [] => 0
  | c, a :: l => vertexWeight K N a c + addrFrom K N (c + 1) l

/-! ### DOCI Hamiltonian builder -/

/-- Embeds `onv.get_occupation_index(e)`: entry `e` of `occupation_indices`
(modelled from the spec: the ascending list of occupied orbital indices of
the representation; entries beyond the electron count are never read by the
source and default to 0 here). -/
def occupationIndex (rep e : Nat) : Nat := (bitIndices rep).getD e 0

/-- State of the incremental-shift loops: the running `size_t` address, the
orbital cursor `q` and the electron cursor `e`. -/
structure ShiftState where
  address : Nat
  q : Nat
  e : Nat

/-- The per-annihilation creation loop of `DOCI::constructHamiltonian` and
`DOCI::matrixVectorProduct`, combining
`FockSpace::shiftUntilNextUnoccupiedOrbital<1>` with the `while (q < K)`
creation loop.  The source calls the shift and then repeats { emit
`J = address + W(q, e2)`; `q++`; shift } while `q < K`; the shift advances
over occupied orbitals (`e < N && q == onv.get_occupation_index(e)`), adding
`W(q, e+1-1) - W(q, e+1)` to the address with wrap-around `size_t`
arithmetic.  Interleaving the shift test before each emission test preserves
the exact control flow.  Returns the `(q, J)` pairs in emission order. -/
def dociCouplingLoop (K N rep : Nat) (s : ShiftState) : List (Nat × Nat) :=
  if h1 : s.e < N ∧ s.q = occupationIndex rep s.e then
    dociCouplingLoop K N rep
      ⟨add64 s.address
         (sub64 (vertexWeight K N s.q s.e) (vertexWeight K N s.q (s.e + 1))),
       s.q + 1, s.e + 1⟩
  else if h2 : s.q < K then
    (s.q, add64 s.address (vertexWeight K N s.q s.e))
      :: dociCouplingLoop K N rep ⟨s.address, s.q + 1, s.e⟩
  else []
termination_by (N - s.e, K - s.q)
decreasing_by
  · exact Prod.Lex.left _ _ (by omega)
  · exact Prod.Lex.right _ (by omega)

/-- All couplings of row `I` of the DOCI builders: for each electron
`e1 < N` with `p = occ(e1)` (the annihilation), start from address
`I - W(p, e1+1)`, `q = p + 1`, `e2 = e1 + 1`, and run the shift/creation
loop; each emitted pair is tagged with `p`. -/
def dociRowCouplings (K N rep I : Nat) : List (Nat × Nat × Nat) :=
  (List.range N).flatMap (fun e1 =>
    let p := occupationIndex rep e1
    (dociCouplingLoop K N rep
        ⟨sub64 I (vertexWeight K N p (e1 + 1)), p + 1, e1 + 1⟩).map
      (fun qJ => (p, qJ.1, qJ.2)))

/-- The ONV representation the builder loops hold at row `I`: `makeONV(0)`,
advanced `I` times by `setNextONV` (modelled from the spec: the
`FockPermutator` interface builds the ONV of a given address via
`calculateRepresentation` and advances representations by
`ulongNextPermutation`). -/
def onvAt (K N I : Nat) : Nat :=
  ulongNextPermutation^[I] (calculateRepresentation K N 0)

/-- Embeds the row entry computed by `DOCI::calculateDiagonal` (the
accumulation into `double_I`): the sum over occupied orbitals `p = occ(e1)`
of `2 h(p,p) + g(p,p,p,p)` plus, over `e2 < e1` with `q = occ(e2)`,
`2 (2 g(p,p,q,q) − g(p,q,q,p))`. -/
def dociDiagonalEntry (par : HamiltonianParameters) (N rep : Nat) : ℚ :=
  ∑ e1 ∈ Finset.range N,
    (2 * par.h (occupationIndex rep e1) (occupationIndex rep e1)
      + par.g (occupationIndex rep e1) (occupationIndex rep e1)
          (occupationIndex rep e1) (occupationIndex rep e1)
      + ∑ e2 ∈ Finset.range e1,
          2 * (2 * par.g (occupationIndex rep e1) (occupationIndex rep e1)
                  (occupationIndex rep e2) (occupationIndex rep e2)
             - par.g (occupationIndex rep e1) (occupationIndex rep e2)
                  (occupationIndex rep e2) (occupationIndex rep e1)))

/-- Embeds `DOCI::calculateDiagonal` (after its orbital-count check): entry
`I` is computed from the ONV visited at address `I`. -/
def calculateDiagonalDOCICore (K N : Nat) (par : HamiltonianParameters) : Vec :=
  fun I => if I < calculateDimension K N then dociDiagonalEntry par N (onvAt K N I) else 0

/-- Apply a list of `(row, column, value)` `+=` updates to a matrix, in
order. -/
def applyMatUpdates (M : Mat) (l : List (Nat × Nat × ℚ)) : Mat :=
  l.foldl (fun A t => fun a b => if a = t.1 ∧ b = t.2.1 then A a b + t.2.2 else A a b) M

/-- Apply a list of `(index, value)` `+=` updates to a vector, in order. -/
def applyVecUpdates (v : Vec) (l : List (Nat × ℚ)) : Vec :=
  l.foldl (fun w t => fun a => if a = t.1 then w a + t.2 else w a) v

/-- The matrix `+=` updates performed by row `I` of
`DOCI::constructHamiltonian`: first `result_matrix(I,I) += diagonal(I)`,
then, for each coupling `(p, q, J)` in loop order,
`result_matrix(I,J) += g(p,q,p,q)` and `result_matrix(J,I) += g(p,q,p,q)`. -/
def dociRowTriples (K N : Nat) (par : HamiltonianParameters) (I : Nat) :
    List (Nat × Nat × ℚ) :=
  (I, I, calculateDiagonalDOCICore K N par I) ::
    (dociRowCouplings K N (onvAt K N I) I).flatMap
      (fun t => [(I, t.2.2, par.g t.1 t.2.1 t.1 t.2.1),
                 (t.2.2, I, par.g t.1 t.2.1 t.1 t.2.1)])

/-- Embeds `DOCI::constructHamiltonian` (after its orbital-count check):
starting from the zero matrix, apply the row updates for every address in
traversal order. -/
def constructHamiltonianDOCICore (K N : Nat) (par : HamiltonianParameters) : Mat :=
  applyMatUpdates (fun _ _ => 0)
    ((List.range (calculateDimension K N)).flatMap (dociRowTriples K N par))

/-- The vector `+=` updates performed by row `I` of
`DOCI::matrixVectorProduct`: `matvec(J) += g(p,q,p,q) * double_J` for each
coupling (with `double_J = x(I)` held fixed during the row), and at the end
of the row `matvec(I) += double_I` with `double_I = Σ g(p,q,p,q) * x(J)`
accumulated over the couplings. -/
def dociRowMatvecUpds (K N : Nat) (par : HamiltonianParameters) (x : Vec) (I : Nat) :
    List (Nat × ℚ) :=
  (dociRowCouplings K N (onvAt K N I) I).map
      (fun t => (t.2.2, par.g t.1 t.2.1 t.1 t.2.1 * x I))
    ++ [(I, ((dociRowCouplings K N (onvAt K N I) I).map
          (fun t => par.g t.1 t.2.1 t.1 t.2.1 * x t.2.2)).sum)]

/-- Embeds `DOCI::matrixVectorProduct` (after its orbital-count check):
`matvec` starts as `diagonal.cwiseProduct(x)` and accumulates the row
updates for every address in traversal order. -/
def matrixVectorProductDOCICore (K N : Nat) (par : HamiltonianParameters)
    (x diagonal : Vec) : Vec :=
  applyVecUpdates (fun r => diagonal r * x r)
    ((List.range (calculateDimension K N)).flatMap (dociRowMatvecUpds K N par x))

/-- Embeds `DOCI::constructHamiltonian` including the orbital-count
compatibility check. -/
def constructHamiltonianDOCI (K N : Nat) (par : HamiltonianParameters) :
    Except CppError Mat :=
  if par.K = K then .ok (constructHamiltonianDOCICore K N par)
  else .error (.invalidArgument "The number of orbitals for the Fock space and Hamiltonian parameters are incompatible.")

/-- Embeds `DOCI::matrixVectorProduct` including the orbital-count
compatibility check. -/
def matrixVectorProductDOCI (K N : Nat) (par : HamiltonianParameters)
    (x diagonal : Vec) : Except CppError Vec :=
  if par.K = K then .ok (matrixVectorProductDOCICore K N par x diagonal)
  else .error (.invalidArgument "The number of orbitals for the Fock space and Hamiltonian parameters are incompatible.")

/-- Embeds `DOCI::calculateDiagonal` including the orbital-count
compatibility check. -/
def calculateDiagonalDOCI (K N : Nat) (par : HamiltonianParameters) :
    Except CppError Vec :=
  if par.K = K then .ok (calculateDiagonalDOCICore K N par)
  else .error (.invalidArgument "Basis functions of the Fock space and hamiltonian_parameters are incompatible.")

/-! ## Theorems -/

/-- Claim C5: in every Davidson preconditioner step, the correction vector
before normalization satisfies, elementwise,
`Δᵢ(j) = Rᵢ(j) / max |diagonal(j) − Λᵢ| correction_threshold`, and the
correction column is then normalized (to unit norm). -/
theorem davidson_preconditioner_formula (n : Nat) (d : Nat → ℝ) (lam t : ℝ)
    (R : Nat → ℝ) :
    davidsonCorrectionColumn n d lam t R
      = vecNormalize n (fun j => R j / max |d j - lam| t) := by
  have hfun : davidsonCorrectionEntry d lam t R
      = fun j => R j / max |d j - lam| t := by
    funext j
    unfold davidsonCorrectionEntry
    rcases lt_or_le t |d j - lam| with h | h
    · rw [if_pos h, max_eq_left h.le]
    · rw [if_neg (not_lt.mpr h), max_eq_right h]
  unfold davidsonCorrectionColumn
  rw [hfun]

/-- Claim C6: `DavidsonSolver` construction succeeds if and only if
`requested ≤ cols(V_0)`, `requested ≤ collapsed_subspace_dimension` and
`collapsed_subspace_dimension < maximum_subspace_dimension`; every violation
fails at construction with `std::invalid_argument`. -/
theorem davidson_constructor_contract (s : DavidsonSolverSpec) :
    (davidsonConstructor s = Except.ok () ↔
      s.requested ≤ s.V0cols ∧ s.requested ≤ s.collapsedDim ∧
        s.collapsedDim < s.maximumDim)
    ∧ ∀ e, davidsonConstructor s = Except.error e →
        ∃ msg, e = CppError.invalidArgument msg := by
  unfold davidsonConstructor
  constructor
  · split_ifs with h1 h2 h3 <;> simp <;> omega
  · intro e he
    split_ifs at he <;> simp at he <;> exact ⟨_, he.symm⟩

/-- Witness for C6: at a concrete valid input construction succeeds, at a
concrete invalid input it returns `std::invalid_argument`. -/
theorem davidson_constructor_contract_witness :
    davidsonConstructor ⟨2, 1, 1, 3⟩ = Except.ok () ∧
    ∃ msg, CppError.invalidArgument
        "You have to specify at least as many initial guesses as number of requested eigenpairs."
      = CppError.invalidArgument msg := by
  constructor
  · exact (davidson_constructor_contract ⟨2, 1, 1, 3⟩).1.mpr (by decide)
  · exact (davidson_constructor_contract ⟨1, 2, 2, 3⟩).2 _ rfl

/-- Claim C7: querying result accessors (`get_eigenpairs`, `get_eigenpair`,
`get_number_of_iterations`) before the corresponding solve has completed
errors out with a logic error (distinct from the runtime errors used for
computational failures); after a successful solve they return the stored
results without error. -/
theorem use_before_ready_contract (s : DOCINewtonOptimizerState)
    (d : DavidsonSolverState) (index : Nat) :
    (s.is_converged = false →
       (∃ e, getEigenpairs s = Except.error e ∧ e.isLogicError = true ∧
          e.isRuntimeError = false) ∧
       (∃ e, getEigenpair s index = Except.error e ∧ e.isLogicError = true ∧
          e.isRuntimeError = false)) ∧
    (d.is_solved = false →
       ∃ e, getNumberOfIterations d = Except.error e ∧ e.isLogicError = true ∧
          e.isRuntimeError = false) ∧
    (s.is_converged = true →
       getEigenpairs s = Except.ok s.eigenpairs ∧
       getEigenpair s index = Except.ok (s.eigenpairs.getD index ⟨0, fun _ => 0⟩)) ∧
    (d.is_solved = true →
       getNumberOfIterations d = Except.ok d.number_of_iterations) := by
  unfold getEigenpairs getEigenpair getNumberOfIterations
  refine ⟨fun h => ?_, fun h => ?_, fun h => ?_, fun h => ?_⟩ <;>
    simp [h, CppError.isLogicError, CppError.isRuntimeError]

/-- Witness for C7: concrete not-ready and ready states, exercising all four
hypotheses of the contract. -/
theorem use_before_ready_contract_witness :
    (∃ e, getEigenpairs ⟨false, []⟩ = Except.error e ∧ e.isLogicError = true ∧
       e.isRuntimeError = false) ∧
    (∃ e, getNumberOfIterations ⟨false, 0⟩ = Except.error e ∧
       e.isLogicError = true ∧ e.isRuntimeError = false) ∧
    getEigenpairs ⟨true, []⟩ = Except.ok [] ∧
    getNumberOfIterations ⟨true, 7⟩ = Except.ok 7 :=
  ⟨((use_before_ready_contract ⟨false, []⟩ ⟨false, 0⟩ 0).1 rfl).1,
   (use_before_ready_contract ⟨false, []⟩ ⟨false, 0⟩ 0).2.1 rfl,
   ((use_before_ready_contract ⟨true, []⟩ ⟨true, 7⟩ 0).2.2.1 rfl).1,
   (use_before_ready_contract ⟨true, []⟩ ⟨true, 7⟩ 0).2.2.2 rfl⟩

/-- Claim C8: the frozen-core Hamiltonian equals the wrapped builder's
Hamiltonian on the frozen (active-space) parameters plus a constant diagonal
shift; the active parameters have `K_active = K - X` orbitals; and the shift
is the closed-form frozen-core energy, identical at every address. -/
theorem frozen_core_constructHamiltonian_shift
    (activeBuilder : HamiltonianParameters → Mat) (dimension X : Nat)
    (par : HamiltonianParameters) :
    (∀ i j, frozenCoreConstructHamiltonian activeBuilder dimension X par i j
       = activeBuilder (freezeHamiltonianParameters par X) i j
         + (if i = j ∧ i < dimension then frozenCoreValue par X else 0)) ∧
    (freezeHamiltonianParameters par X).K = par.K - X ∧
    (∀ I, I < dimension →
       calculateFrozenCoreDiagonal par X dimension I = frozenCoreValue par X) := by
  refine ⟨fun i j => ?_, rfl, fun I hI => ?_⟩
  · unfold frozenCoreConstructHamiltonian calculateFrozenCoreDiagonal
    rcases Classical.em (i = j ∧ i < dimension) with h | h
    · rw [if_pos h, if_pos h, if_pos h.2]
    · rw [if_neg h, if_neg h]
  · unfold calculateFrozenCoreDiagonal
    rw [if_pos hI]

/-- Witness for C8: the diagonal shift at two concrete addresses of a
dimension-2 space with one frozen orbital. -/
theorem frozen_core_constructHamiltonian_shift_witness :
    calculateFrozenCoreDiagonal ⟨2, fun _ _ => 0, fun _ _ => 0,
        fun _ _ _ _ => 0, fun _ _ => 0⟩ 1 2 1
      = frozenCoreValue ⟨2, fun _ _ => 0, fun _ _ => 0,
        fun _ _ _ _ => 0, fun _ _ => 0⟩ 1 :=
  (frozen_core_constructHamiltonian_shift (fun _ _ _ => 0) 2 1
    ⟨2, fun _ _ => 0, fun _ _ => 0, fun _ _ _ _ => 0, fun _ _ => 0⟩).2.2 1
    (by norm_num)

/-- Claim C9: the concrete `K = 4, N = 2` scenario: `dim = 6`, the
representation at address 0 is `0b0011 = 3` (orbitals 0 and 1 occupied), its
address is 0, and `ulongNextPermutation(0b0011) = 0b0101 = 5`. -/
theorem fock_space_K4_N2_scenario :
    calculateDimension 4 2 = 6 ∧
    calculateRepresentation 4 2 0 = 3 ∧
    getAddress 4 2 3 = 0 ∧
    ulongNextPermutation 3 = 5 := by
  refine ⟨by decide, ?_, ?_, ?_⟩
  · simp [calculateRepresentation, calcRepLoop, vertexWeight]
  · simp [getAddress, getAddressLoop, ctz, vertexWeight, add64, word64]
  · simp [ulongNextPermutation, ctz, add64, sub64, word64] <;> decide

/-- Claim C10 counterexample: `addConfiguration` with an ONV string whose
length does not match `K` throws, but the Fock space is NOT left unchanged:
`dim` has already been incremented from 0 to 1. -/
theorem addConfiguration_not_atomic :
    (addConfiguration ⟨2, 1, 1, 0, []⟩ [true] [true]).1
      = Except.error (CppError.invalidArgument
          "Given string representations for ONVs are not compatible with the number of orbitals of the Fock space") ∧
    (addConfiguration ⟨2, 1, 1, 0, []⟩ [true] [true]).2.dim = 1 ∧
    (addConfiguration ⟨2, 1, 1, 0, []⟩ [true] [true]).2 ≠ ⟨2, 1, 1, 0, []⟩ := by
  refine ⟨rfl, rfl, ?_⟩
  intro h
  have : (1 : Nat) = 0 := congrArg SelectedFockSpace.dim h
  exact Nat.one_ne_zero this

/-- Claim C10 amended: when `addConfiguration` fails, the stored configuration
list is unchanged, but the dimension has already been incremented by one
(the increment happens before validation). -/
theorem addConfiguration_error_state (s : SelectedFockSpace)
    (onv1 onv2 : List Bool) (e : CppError)
    (he : (addConfiguration s onv1 onv2).1 = Except.error e) :
    (addConfiguration s onv1 onv2).2.configurations = s.configurations ∧
    (addConfiguration s onv1 onv2).2.dim = s.dim + 1 := by
  unfold addConfiguration at he ⊢
  cases h : makeConfiguration s onv1 onv2 <;> simp [h] at he ⊢

/-- Witness for C10's amended claim at a concrete failing call. -/
theorem addConfiguration_error_state_witness :
    (addConfiguration ⟨2, 1, 1, 0, []⟩ [true] [true]).2.configurations = [] ∧
    (addConfiguration ⟨2, 1, 1, 0, []⟩ [true] [true]).2.dim = 0 + 1 :=
  addConfiguration_error_state ⟨2, 1, 1, 0, []⟩ [true] [true]
    (CppError.invalidArgument
      "Given string representations for ONVs are not compatible with the number of orbitals of the Fock space")
    rfl

/-! ### Bit-manipulation toolkit -/

theorem ctz_eq_zero_of_odd (n : Nat) (h : n % 2 = 1) : ctz n = 0 := by
  unfold ctz
  rw [dif_pos (Or.inl h)]

theorem ctz_eq_succ (n : Nat) (h0 : n ≠ 0) (h : n % 2 = 0) :
    ctz n = ctz (n / 2) + 1 := by
  conv_lhs => rw [ctz]
  rw [dif_neg (by rintro (h1 | h1) <;> omega)]

theorem ctz_spec (n : Nat) (h : n ≠ 0) : ∃ y, y % 2 = 1 ∧ n = 2 ^ ctz n * y := by
  induction n using Nat.strong_induction_on with
  | _ n ih =>
    by_cases hp : n % 2 = 1
    · exact ⟨n, hp, by rw [ctz_eq_zero_of_odd n hp, pow_zero, one_mul]⟩
    · have h2 : n % 2 = 0 := by omega
      have hn2 : n / 2 ≠ 0 := by omega
      obtain ⟨y, hy, hrec⟩ := ih (n / 2) (by omega) hn2
      refine ⟨y, hy, ?_⟩
      rw [ctz_eq_succ n h h2]
      calc n = 2 * (n / 2) := by omega
      _ = 2 * (2 ^ ctz (n / 2) * y) := by rw [← hrec]
      _ = 2 ^ (ctz (n / 2) + 1) * y := by ring

theorem two_pow_ctz_dvd (n : Nat) (h : n ≠ 0) : 2 ^ ctz n ∣ n := by
  obtain ⟨y, _, he⟩ := ctz_spec n h
  exact ⟨y, he⟩

theorem two_pow_ctz_le (n : Nat) (h : n ≠ 0) : 2 ^ ctz n ≤ n :=
  Nat.le_of_dvd (Nat.pos_of_ne_zero h) (two_pow_ctz_dvd n h)

theorem ctz_two_pow_mul_odd (c y : Nat) (hy : y % 2 = 1) : ctz (2 ^ c * y) = c := by
  induction c with
  | zero => rw [pow_zero, one_mul]; exact ctz_eq_zero_of_odd y hy
  | succ c ih =>
    have hne : 2 ^ (c + 1) * y ≠ 0 := by
      have hy0 : y ≠ 0 := by omega
      positivity
    have heven : 2 ^ (c + 1) * y % 2 = 0 := by
      have : 2 ∣ 2 ^ (c + 1) * y := Dvd.dvd.mul_right (dvd_pow_self 2 (by omega)) y
      omega
    rw [ctz_eq_succ _ hne heven]
    have hdiv : 2 ^ (c + 1) * y / 2 = 2 ^ c * y := by
      rw [pow_succ, mul_comm (2 ^ c) 2, mul_assoc]
      exact Nat.mul_div_cancel_left _ (by norm_num)
    rw [hdiv, ih]

theorem sub_two_pow_ctz_dvd (n : Nat) (h : n ≠ 0) :
    2 ^ (ctz n + 1) ∣ (n - 2 ^ ctz n) := by
  obtain ⟨y, hy, he⟩ := ctz_spec n h
  rcases y with _ | y'
  · omega
  · refine ⟨y' / 2, ?_⟩
    have heq : n = 2 ^ ctz n * y' + 2 ^ ctz n := by
      conv_lhs => rw [he]
      ring
    have hsub : n - 2 ^ ctz n = 2 ^ ctz n * y' := Nat.sub_eq_of_eq_add heq
    have hy' : y' = 2 * (y' / 2) := by omega
    rw [hsub]
    calc 2 ^ ctz n * y' = 2 ^ ctz n * (2 * (y' / 2)) := by rw [← hy']
    _ = 2 ^ (ctz n + 1) * (y' / 2) := by ring

theorem bitIndices_nil : bitIndices 0 = [] := by
  unfold bitIndices
  simp

theorem bitIndices_cons (x : Nat) (h : x ≠ 0) :
    bitIndices x = ctz x :: bitIndices (x - 2 ^ ctz x) := by
  rw [bitIndices, dif_neg h]

theorem le_ctz_of_two_pow_dvd (b x : Nat) (h0 : x ≠ 0) (h : 2 ^ b ∣ x) :
    b ≤ ctz x := by
  obtain ⟨y, hy, he⟩ := ctz_spec x h0
  by_contra hbc
  push_neg at hbc
  have hdvd : 2 ^ (ctz x + 1) ∣ x := dvd_trans (pow_dvd_pow 2 (by omega)) h
  obtain ⟨t, ht⟩ := hdvd
  have h2 : 2 ^ ctz x * y = 2 ^ ctz x * (2 * t) := by
    calc 2 ^ ctz x * y = x := he.symm
    _ = 2 ^ (ctz x + 1) * t := ht
    _ = 2 ^ ctz x * (2 * t) := by ring
  have hyt : y = 2 * t :=
    Nat.eq_of_mul_eq_mul_left (Nat.pos_pow_of_pos _ (by norm_num)) h2
  omega

theorem bitIndices_mem_lower (b : Nat) :
    ∀ x, 2 ^ b ∣ x → ∀ a ∈ bitIndices x, b ≤ a := by
  intro x
  induction x using Nat.strong_induction_on with
  | _ x ih =>
    intro hdvd a ha
    by_cases h0 : x = 0
    · rw [h0, bitIndices_nil] at ha
      exact absurd ha (List.not_mem_nil a)
    · rw [bitIndices_cons x h0] at ha
      have hcb : b ≤ ctz x := le_ctz_of_two_pow_dvd b x h0 hdvd
      rcases List.mem_cons.mp ha with rfl | ha'
      · exact hcb
      · refine ih (x - 2 ^ ctz x)
          (Nat.sub_lt (Nat.pos_of_ne_zero h0) (Nat.pos_pow_of_pos _ (by norm_num)))
          ?_ a ha'
        exact Nat.dvd_sub' hdvd (pow_dvd_pow 2 hcb)

theorem bitIndices_sorted (x : Nat) : List.Pairwise (· < ·) (bitIndices x) := by
  induction x using Nat.strong_induction_on with
  | _ x ih =>
    by_cases h0 : x = 0
    · rw [h0, bitIndices_nil]; exact List.Pairwise.nil
    · rw [bitIndices_cons x h0]
      refine List.Pairwise.cons (fun a ha => ?_)
        (ih _ (Nat.sub_lt (Nat.pos_of_ne_zero h0) (Nat.pos_pow_of_pos _ (by norm_num))))
      have := bitIndices_mem_lower (ctz x + 1) (x - 2 ^ ctz x)
        (sub_two_pow_ctz_dvd x h0) a ha
      omega

theorem bitIndices_mem_lt (K : Nat) :
    ∀ x, x < 2 ^ K → ∀ a ∈ bitIndices x, a < K := by
  intro x
  induction x using Nat.strong_induction_on with
  | _ x ih =>
    intro hx a ha
    by_cases h0 : x = 0
    · rw [h0, bitIndices_nil] at ha
      exact absurd ha (List.not_mem_nil a)
    · rw [bitIndices_cons x h0] at ha
      rcases List.mem_cons.mp ha with rfl | ha'
      · have h1 : 2 ^ ctz x ≤ x := two_pow_ctz_le x h0
        have h2 : (2 : Nat) ^ ctz x < 2 ^ K := lt_of_le_of_lt h1 hx
        exact (Nat.pow_lt_pow_iff_right (by norm_num)).mp h2
      · exact ih (x - 2 ^ ctz x)
          (Nat.sub_lt (Nat.pos_of_ne_zero h0) (Nat.pos_pow_of_pos _ (by norm_num)))
          (lt_of_le_of_lt (Nat.sub_le _ _) hx) a ha'

theorem or_two_pow_eq_add_of_dvd (a z : Nat) (h : 2 ^ (a + 1) ∣ z) :
    2 ^ a ||| z = 2 ^ a + z := by
  obtain ⟨t, rfl⟩ := h
  apply Nat.eq_of_testBit_eq
  intro i
  have h2 : (2 : Nat) ^ a < 2 ^ (a + 1) := Nat.pow_lt_pow_succ (by norm_num)
  rw [Nat.testBit_or,
    show 2 ^ a + 2 ^ (a + 1) * t = 2 ^ (a + 1) * t + 2 ^ a by ring,
    Nat.testBit_mul_pow_two_add t h2 i, Nat.testBit_mul_pow_two]
  by_cases hi : i < a + 1
  · simp [hi, Nat.not_le.mpr hi]
  · have hge : a + 1 ≤ i := Nat.not_lt.mp hi
    have hne : a ≠ i := by omega
    simp [hi, hge, Nat.testBit_two_pow_of_ne hne]

theorem or_two_pow_eq_add_of_lt (a z : Nat) (h : z < 2 ^ a) :
    z ||| 2 ^ a = z + 2 ^ a := by
  apply Nat.eq_of_testBit_eq
  intro i
  rw [Nat.testBit_or,
    show z + 2 ^ a = 2 ^ a * 1 + z by ring,
    Nat.testBit_mul_pow_two_add 1 h i]
  by_cases hi : i < a
  · simp [hi, Nat.testBit_two_pow_of_ne (by omega : a ≠ i)]
  · have hge : a ≤ i := Nat.not_lt.mp hi
    have hz : z.testBit i = false :=
      Nat.testBit_lt_two_pow (lt_of_lt_of_le h (Nat.pow_le_pow_right (by norm_num) hge))
    by_cases hia : i = a
    · subst hia
      simp [hz, hi, Nat.testBit_two_pow_self]
    · have h1 : Nat.testBit 1 (i - a) = false := by
        have hne0 : i - a ≠ 0 := by omega
        rcases Nat.exists_eq_succ_of_ne_zero hne0 with ⟨k, hk⟩
        rw [hk, Nat.testBit_add_one]
        simp
      simp [hz, hi, h1, Nat.testBit_two_pow_of_ne (by omega : a ≠ i)]

theorem ofBits_nil : ofBits [] = 0 := rfl

theorem ofBits_cons (a : Nat) (l : List Nat) :
    ofBits (a :: l) = 2 ^ a ||| ofBits l := rfl

theorem ofBits_append (l1 l2 : List Nat) :
    ofBits (l1 ++ l2) = ofBits l1 ||| ofBits l2 := by
  induction l1 with
  | nil => simp [ofBits_nil, ofBits_cons]
  | cons a l ih => simp [ofBits_cons, ih, Nat.or_assoc]

theorem ofBits_lt_two_pow (K : Nat) (l : List Nat) (h : ∀ a ∈ l, a < K) :
    ofBits l < 2 ^ K := by
  induction l with
  | nil => exact Nat.pos_pow_of_pos _ (by norm_num)
  | cons a l ih =>
    rw [ofBits_cons]
    exact Nat.or_lt_two_pow
      (Nat.pow_lt_pow_right (by norm_num) (h a (List.mem_cons_self a l)))
      (ih (fun b hb => h b (List.mem_cons_of_mem a hb)))

theorem two_pow_dvd_or (k x y : Nat) (hx : 2 ^ k ∣ x) (hy : 2 ^ k ∣ y) :
    2 ^ k ∣ (x ||| y) := by
  obtain ⟨a, rfl⟩ := hx
  obtain ⟨b, rfl⟩ := hy
  have key : 2 ^ k * a ||| 2 ^ k * b = 2 ^ k * (a ||| b) := by
    apply Nat.eq_of_testBit_eq
    intro i
    rw [Nat.testBit_or, Nat.testBit_mul_pow_two, Nat.testBit_mul_pow_two,
      Nat.testBit_mul_pow_two, Nat.testBit_or]
    by_cases hi : k ≤ i <;> simp [hi]
  rw [key]
  exact Dvd.intro _ rfl

theorem two_pow_dvd_ofBits (b : Nat) (l : List Nat) (h : ∀ a ∈ l, b ≤ a) :
    2 ^ b ∣ ofBits l := by
  induction l with
  | nil => rw [ofBits_nil]; exact dvd_zero _
  | cons a l ih =>
    rw [ofBits_cons]
    exact two_pow_dvd_or b _ _
      (pow_dvd_pow 2 (h a (List.mem_cons_self a l)))
      (ih (fun c hc => h c (List.mem_cons_of_mem a hc)))

theorem left_le_or (x y : Nat) : x ≤ x ||| y :=
  Nat.le_of_testBit (fun i h => by rw [Nat.testBit_or, h, Bool.true_or])

theorem right_le_or (x y : Nat) : y ≤ x ||| y :=
  Nat.le_of_testBit (fun i h => by rw [Nat.testBit_or, h, Bool.or_true])

theorem ofBits_sorted_cons_eq_add (a : Nat) (l : List Nat)
    (h : ∀ x ∈ l, a < x) : ofBits (a :: l) = 2 ^ a + ofBits l := by
  rw [ofBits_cons]
  exact or_two_pow_eq_add_of_dvd a _ (two_pow_dvd_ofBits (a + 1) l (fun x hx => h x hx))

theorem two_pow_le_ofBits (a : Nat) (l : List Nat) (h : a ∈ l) :
    2 ^ a ≤ ofBits l := by
  induction l with
  | nil => exact absurd h (List.not_mem_nil a)
  | cons b l ih =>
    rw [ofBits_cons]
    rcases List.mem_cons.mp h with rfl | h'
    · exact left_le_or _ _
    · exact le_trans (ih h') (right_le_or _ _)

theorem ofBits_bitIndices (x : Nat) : ofBits (bitIndices x) = x := by
  induction x using Nat.strong_induction_on with
  | _ x ih =>
    by_cases h0 : x = 0
    · rw [h0, bitIndices_nil, ofBits_nil]
    · rw [bitIndices_cons x h0, ofBits_cons,
        ih _ (Nat.sub_lt (Nat.pos_of_ne_zero h0) (Nat.pos_pow_of_pos _ (by norm_num))),
        or_two_pow_eq_add_of_dvd _ _ (sub_two_pow_ctz_dvd x h0)]
      exact Nat.add_sub_cancel' (two_pow_ctz_le x h0)

theorem popCount_two_mul (n : Nat) : popCount (2 * n) = popCount n := by
  by_cases h : n = 0
  · rw [h]
  · have h2 : 2 * n ≠ 0 := by omega
    rw [popCount]
    simp [h2, Nat.mul_mod_right, Nat.mul_div_cancel_left n (by norm_num : 0 < 2)]

theorem popCount_two_pow_mul (c m : Nat) : popCount (2 ^ c * m) = popCount m := by
  induction c with
  | zero => simp
  | succ c ih =>
    rw [show 2 ^ (c + 1) * m = 2 * (2 ^ c * m) by ring, popCount_two_mul, ih]

theorem popCount_eq_zero (x : Nat) : popCount x = 0 ↔ x = 0 := by
  constructor
  · intro h
    by_contra h0
    obtain ⟨y, hy, he⟩ := ctz_spec x h0
    rw [he, popCount_two_pow_mul] at h
    have hy0 : y ≠ 0 := by omega
    rw [popCount] at h
    simp [hy0, hy] at h
  · intro h
    rw [h, popCount]
    simp

theorem popCount_succ_of_even (y : Nat) (h : y % 2 = 0) :
    popCount (y + 1) = popCount y + 1 := by
  have h1 : y + 1 ≠ 0 := by omega
  rw [popCount]
  simp only [h1, if_false]
  have h2 : (y + 1) % 2 = 1 := by omega
  have h3 : (y + 1) / 2 = y / 2 := by omega
  rw [h2, h3]
  by_cases hy0 : y = 0
  · subst hy0
    simp [popCount]
  · conv_rhs => rw [popCount]
    simp [hy0, h]
    omega

theorem popCount_sub_two_pow_ctz (x : Nat) (h : x ≠ 0) :
    popCount x = popCount (x - 2 ^ ctz x) + 1 := by
  obtain ⟨y, hy, he⟩ := ctz_spec x h
  rcases y with _ | y'
  · omega
  · have heq : x = 2 ^ ctz x * y' + 2 ^ ctz x := by
      conv_lhs => rw [he]
      ring
    have hsub : x - 2 ^ ctz x = 2 ^ ctz x * y' := Nat.sub_eq_of_eq_add heq
    rw [hsub, popCount_two_pow_mul]
    conv_lhs => rw [he]
    rw [popCount_two_pow_mul]
    exact popCount_succ_of_even y' (by omega)

theorem popCount_eq_length_bitIndices (x : Nat) :
    popCount x = (bitIndices x).length := by
  induction x using Nat.strong_induction_on with
  | _ x ih =>
    by_cases h0 : x = 0
    · rw [h0, bitIndices_nil, popCount]
      simp
    · rw [bitIndices_cons x h0, List.length_cons, popCount_sub_two_pow_ctz x h0,
        ih _ (Nat.sub_lt (Nat.pos_of_ne_zero h0) (Nat.pos_pow_of_pos _ (by norm_num)))]

theorem bitIndices_ofBits (l : List Nat) (h : List.Pairwise (· < ·) l) :
    bitIndices (ofBits l) = l := by
  induction l with
  | nil => exact bitIndices_nil
  | cons a l ih =>
    have ha : ∀ x ∈ l, a < x := fun x hx => (List.pairwise_cons.mp h).1 x hx
    have hl : List.Pairwise (· < ·) l := (List.pairwise_cons.mp h).2
    have hsum : ofBits (a :: l) = 2 ^ a + ofBits l := ofBits_sorted_cons_eq_add a l ha
    obtain ⟨t, ht⟩ := two_pow_dvd_ofBits (a + 1) l (fun x hx => ha x hx)
    have hval : ofBits (a :: l) = 2 ^ a * (2 * t + 1) := by
      rw [hsum, ht]
      ring
    have hne : ofBits (a :: l) ≠ 0 := by
      rw [hval]
      positivity
    have hctz : ctz (ofBits (a :: l)) = a := by
      rw [hval]
      exact ctz_two_pow_mul_odd a _ (by omega)
    rw [bitIndices_cons _ hne, hctz]
    have hrest : ofBits (a :: l) - 2 ^ a = ofBits l := by
      rw [hsum]
      omega
    rw [hrest, ih hl]

/-! ### Vertex-weight algebra -/

theorem vertexWeight_zero (K N p : Nat) :
    vertexWeight K N p 0 = if p ≤ K - N then 1 else 0 := by
  rw [vertexWeight.eq_def]

theorem vertexWeight_succ_eq (K N p m : Nat) :
    vertexWeight K N p (m + 1) =
      if m + 1 ≤ p ∧ p ≤ K - N + (m + 1) then
        vertexWeight K N (p - 1) (m + 1) + vertexWeight K N (p - 1) m
      else 0 := by
  rw [vertexWeight.eq_def]

theorem vertexWeight_out_low (K N p m : Nat) (h : p < m) :
    vertexWeight K N p m = 0 := by
  cases m with
  | zero => omega
  | succ mm =>
    rw [vertexWeight_succ_eq, if_neg (by omega)]

theorem vertexWeight_out_high (K N p m : Nat) (h : K - N + m < p) :
    vertexWeight K N p m = 0 := by
  cases m with
  | zero => rw [vertexWeight_zero, if_neg (by omega)]
  | succ mm => rw [vertexWeight_succ_eq, if_neg (by omega)]

theorem vertexWeight_rec (K N p m : Nat) (h1 : m + 1 ≤ p + 1)
    (h2 : p + 1 ≤ K - N + (m + 1)) :
    vertexWeight K N (p + 1) (m + 1) =
      vertexWeight K N p (m + 1) + vertexWeight K N p m := by
  rw [vertexWeight_succ_eq, if_pos ⟨h1, h2⟩]
  simp

theorem vertexWeight_eq_choose (K N : Nat) (hNK : N ≤ K) :
    ∀ p m, m ≤ p → p ≤ K - N + m → vertexWeight K N p m = Nat.choose p m := by
  intro p
  induction p using Nat.strong_induction_on with
  | _ p ih =>
    intro m hmp hpb
    cases m with
    | zero => rw [vertexWeight_zero, if_pos (by omega), Nat.choose_zero_right]
    | succ mm =>
      obtain ⟨p', rfl⟩ : ∃ p', p = p' + 1 := ⟨p - 1, by omega⟩
      rw [vertexWeight_succ_eq, if_pos ⟨hmp, hpb⟩]
      simp only [Nat.add_sub_cancel]
      rw [Nat.choose_succ_succ]
      have h1 : vertexWeight K N p' mm = Nat.choose p' mm :=
        ih p' (by omega) mm (by omega) (by omega)
      have h2 : vertexWeight K N p' (mm + 1) = Nat.choose p' (mm + 1) := by
        by_cases hb : mm + 1 ≤ p'
        · exact ih p' (by omega) (mm + 1) hb (by omega)
        · rw [vertexWeight_out_low _ _ _ _ (by omega),
            Nat.choose_eq_zero_of_lt (by omega)]
      rw [h1, h2]
      simp only [Nat.succ_eq_add_one]
      omega

theorem choose_le_two_pow (K N : Nat) : Nat.choose K N ≤ 2 ^ K := by
  by_cases h : N ≤ K
  · calc Nat.choose K N ≤ ∑ i ∈ Finset.range (K + 1), Nat.choose K i :=
      Finset.single_le_sum (fun i _ => Nat.zero_le _) (Finset.mem_range.mpr (by omega))
    _ = 2 ^ K := Nat.sum_range_choose K
  · rw [Nat.choose_eq_zero_of_lt (by omega)]
    exact Nat.zero_le _

theorem choose_sub_le (K N : Nat) (hNK : N ≤ K) :
    ∀ j, j ≤ N → Nat.choose (K - j) (N - j) ≤ Nat.choose K N := by
  intro j
  induction j with
  | zero => simp
  | succ j ih =>
    intro hj
    have hstep : Nat.choose (K - (j + 1)) (N - (j + 1)) ≤ Nat.choose (K - j) (N - j) := by
      have hK : K - j = (K - (j + 1)) + 1 := by omega
      have hN : N - j = (N - (j + 1)) + 1 := by omega
      rw [hK, hN, Nat.choose_succ_succ]
      exact Nat.le_add_right _ _
    exact le_trans hstep (ih (by omega))

theorem vertexWeight_le_dim (K N : Nat) (hNK : N ≤ K) (p m : Nat) (hm : m ≤ N) :
    vertexWeight K N p m ≤ Nat.choose K N := by
  by_cases hlow : p < m
  · rw [vertexWeight_out_low _ _ _ _ hlow]
    exact Nat.zero_le _
  by_cases hhigh : K - N + m < p
  · rw [vertexWeight_out_high _ _ _ _ hhigh]
    exact Nat.zero_le _
  push_neg at hlow hhigh
  rw [vertexWeight_eq_choose K N hNK p m hlow hhigh]
  calc Nat.choose p m ≤ Nat.choose (K - N + m) m := Nat.choose_le_choose m hhigh
  _ = Nat.choose (K - (N - m)) (N - (N - m)) := by
    congr 1 <;> omega
  _ ≤ Nat.choose K N := choose_sub_le K N hNK (N - m) (by omega)

theorem vertexWeight_mono (K N : Nat) (hNK : N ≤ K) (m : Nat) :
    ∀ p p', m ≤ p → p ≤ p' → p' ≤ K - N + m →
      vertexWeight K N p m ≤ vertexWeight K N p' m := by
  intro p p' hmp hpp'
  induction p', hpp' using Nat.le_induction with
  | base => intro _; exact le_refl _
  | succ p'' hp'' ih =>
    intro hb
    have ih2 := ih (by omega)
    have hstep : vertexWeight K N p'' m ≤ vertexWeight K N (p'' + 1) m := by
      cases m with
      | zero =>
        rw [vertexWeight_zero, vertexWeight_zero,
          if_pos (show p'' ≤ K - N by omega), if_pos (show p'' + 1 ≤ K - N by omega)]
      | succ mm =>
        rw [vertexWeight_rec K N p'' mm (by omega) (by omega)]
        exact Nat.le_add_right _ _
    exact le_trans ih2 hstep

/-! ### The addressing scheme: key inequality and round trips -/

theorem addrFrom_nil (K N c : Nat) : addrFrom K N c [] = 0 := rfl

theorem addrFrom_cons (K N c a : Nat) (l : List Nat) :
    addrFrom K N c (a :: l) = vertexWeight K N a c + addrFrom K N (c + 1) l := rfl

theorem addrFrom_append (K N : Nat) (l1 : List Nat) :
    ∀ (c : Nat) (l2 : List Nat),
      addrFrom K N c (l1 ++ l2)
        = addrFrom K N c l1 + addrFrom K N (c + l1.length) l2 := by
  induction l1 with
  | nil => intro c l2; simp [addrFrom_nil]
  | cons a l ih =>
    intro c l2
    rw [List.cons_append, addrFrom_cons, addrFrom_cons, ih (c + 1) l2,
      List.length_cons, show c + (l.length + 1) = c + 1 + l.length by omega]
    ring

theorem sorted_concat_length_le (l : List Nat) (b : Nat)
    (h : List.Pairwise (· < ·) (l ++ [b])) : l.length ≤ b := by
  induction l using List.reverseRecOn generalizing b with
  | nil => exact Nat.zero_le b
  | append_singleton l a ih =>
    have h' : List.Pairwise (· < ·) ((l ++ [a]) ++ [b]) := h
    rw [List.pairwise_append] at h'
    have hab : a < b := h'.2.2 a (by simp) b (by simp)
    have h1 := ih a h'.1
    simp only [List.length_append, List.length_cons, List.length_nil]
    omega

theorem addrFrom_lt_weight (K N : Nat) (hNK : N ≤ K) :
    ∀ (qs : List Nat) (Q : Nat), List.Pairwise (· < ·) (qs ++ [Q]) →
      Q ≤ K - N + qs.length →
      addrFrom K N 1 qs < vertexWeight K N Q qs.length := by
  intro qs
  induction qs using List.reverseRecOn with
  | nil =>
    intro Q _ hb
    rw [addrFrom_nil, List.length_nil, vertexWeight_zero, if_pos (by simpa using hb)]
    norm_num
  | append_singleton l b ih =>
    intro Q hsort hb
    rw [List.pairwise_append] at hsort
    obtain ⟨hlb, _, hrel⟩ := hsort
    have hbQ : b < Q := hrel b (by simp) Q (by simp)
    have hmb : l.length ≤ b := sorted_concat_length_le l b hlb
    have hb' : Q ≤ K - N + (l.length + 1) := by
      simpa using hb
    have hihyp : addrFrom K N 1 l < vertexWeight K N b l.length :=
      ih b hlb (by omega)
    have hmono : vertexWeight K N (b + 1) (l.length + 1)
        ≤ vertexWeight K N Q (l.length + 1) :=
      vertexWeight_mono K N hNK (l.length + 1) (b + 1) Q (by omega) (by omega) (by omega)
    have hrec : vertexWeight K N (b + 1) (l.length + 1)
        = vertexWeight K N b (l.length + 1) + vertexWeight K N b l.length :=
      vertexWeight_rec K N b l.length (by omega) (by omega)
    rw [addrFrom_append, addrFrom_cons, addrFrom_nil,
      show (1 : Nat) + l.length = l.length + 1 by omega,
      show (l ++ [b]).length = l.length + 1 by simp]
    omega

theorem calcRepLoop_correct (K N : Nat) (hNK : N ≤ K) :
    ∀ (c : Nat) (qs : List Nat) (rep : Nat), qs ≠ [] →
      List.Pairwise (· < ·) qs → (∀ a ∈ qs, a < c) → c ≤ K - N + qs.length →
      calcRepLoop K N c (addrFrom K N 1 qs) qs.length rep = rep ||| ofBits qs := by
  intro c
  induction c with
  | zero =>
    intro qs rep hne hsort hlt _
    obtain ⟨a, ha⟩ := List.exists_mem_of_ne_nil qs hne
    exact absurd (hlt a ha) (Nat.not_lt_zero a)
  | succ p ih =>
    intro qs rep hne hsort hlt hb
    rcases List.eq_nil_or_concat qs with rfl | ⟨l, b, rfl⟩
    · exact absurd rfl hne
    simp only [List.concat_eq_append] at hsort hlt hb ⊢
    have hbp : b ≤ p := by
      have := hlt b (by simp)
      omega
    have hlen : (l ++ [b]).length = l.length + 1 := by simp
    have hb2 : p + 1 ≤ K - N + (l.length + 1) := by
      rw [hlen] at hb
      exact hb
    have hrell : ∀ x ∈ l, x < b := by
      rw [List.pairwise_append] at hsort
      exact fun x hx => hsort.2.2 x hx b (by simp)
    have hWb : addrFrom K N 1 (l ++ [b])
        = addrFrom K N 1 l + vertexWeight K N b (l.length + 1) := by
      rw [addrFrom_append, addrFrom_cons, addrFrom_nil,
        show (1 : Nat) + l.length = l.length + 1 by omega]
      ring
    by_cases hpb : p = b
    · subst hpb
      rw [hlen, hWb]
      simp only [calcRepLoop]
      rw [if_pos (Nat.le_add_left _ _)]
      simp only [Nat.add_sub_cancel]
      rcases List.eq_nil_or_concat l with rfl | ⟨l2, b2, rfl⟩
      · simp [ofBits_cons, ofBits_nil, addrFrom_nil]
      · simp only [List.concat_eq_append] at hsort hrell hb2 ⊢
        have hlne : ¬ (l2 ++ [b2]).length = 0 := by simp
        rw [if_neg hlne]
        have hih := ih (l2 ++ [b2]) (rep ||| 2 ^ p) (by simp)
          ((List.pairwise_append.mp hsort).1)
          (fun a ha => hrell a (by simpa using ha)) (by
            rw [hlen] at hb
            simp only [List.length_append, List.length_cons, List.length_nil] at *
            omega)
        rw [hih, Nat.or_assoc, Nat.or_comm (2 ^ p)]
        simp only [ofBits_append, ofBits_cons, ofBits_nil, Nat.or_zero]
    · have hblt : b < p := by omega
      have hlt' : ∀ a ∈ l ++ [b], a < p := by
        intro a ha
        rcases List.mem_append.mp ha with h1 | h1
        · exact lt_trans (hrell a h1) hblt
        · simp at h1
          omega
      have hF2 : addrFrom K N 1 (l ++ [b])
          < vertexWeight K N p ((l ++ [b]).length) := by
        apply addrFrom_lt_weight K N hNK (l ++ [b]) p ?_ (by rw [hlen]; omega)
        rw [List.pairwise_append]
        refine ⟨hsort, List.pairwise_singleton _ _, ?_⟩
        intro x hx y hy
        simp at hy
        subst hy
        exact hlt' x hx
      simp only [calcRepLoop]
      rw [if_neg (Nat.not_le.mpr hF2)]
      exact ih (l ++ [b]) rep (by simp) hsort hlt' (by rw [hlen]; omega)

theorem getAddressLoop_eq_addrFrom (K N : Nat) :
    ∀ (x : Nat), ∀ (ec addr : Nat),
      addr + addrFrom K N (ec + 1) (bitIndices x) < word64 →
      getAddressLoop K N x ec addr = addr + addrFrom K N (ec + 1) (bitIndices x) := by
  intro x
  induction x using Nat.strong_induction_on with
  | _ x ih =>
    intro ec addr hbound
    by_cases h0 : x = 0
    · subst h0
      rw [bitIndices_nil, addrFrom_nil, getAddressLoop]
      simp
    · rw [bitIndices_cons x h0, addrFrom_cons] at hbound ⊢
      rw [getAddressLoop, dif_neg h0]
      have hW : add64 addr (vertexWeight K N (ctz x) (ec + 1))
          = addr + vertexWeight K N (ctz x) (ec + 1) := by
        unfold add64
        exact Nat.mod_eq_of_lt (by omega)
      rw [hW, ih (x - 2 ^ ctz x)
        (Nat.sub_lt (Nat.pos_of_ne_zero h0) (Nat.pos_pow_of_pos _ (by norm_num)))
        (ec + 1) _ (by omega)]
      omega

theorem getAddress_eq_addrFrom (K N x : Nat)
    (h : addrFrom K N 1 (bitIndices x) < word64) :
    getAddress K N x = addrFrom K N 1 (bitIndices x) := by
  unfold getAddress
  rw [getAddressLoop_eq_addrFrom K N x 0 0 (by simpa using h)]
  simp

theorem bitIndices_concat_top_sorted (K x : Nat) (hx : x < 2 ^ K) :
    List.Pairwise (· < ·) (bitIndices x ++ [K]) := by
  rw [List.pairwise_append]
  refine ⟨bitIndices_sorted x, List.pairwise_singleton _ _, ?_⟩
  intro a ha y hy
  simp at hy
  rw [hy]
  exact bitIndices_mem_lt K x hx a ha

theorem addrFrom_bitIndices_lt_dim (K N x : Nat) (hNK : N ≤ K)
    (hx : x < 2 ^ K) (hpc : popCount x = N) :
    addrFrom K N 1 (bitIndices x) < Nat.choose K N := by
  have hlen : (bitIndices x).length = N := by
    rw [← popCount_eq_length_bitIndices, hpc]
  have hW : vertexWeight K N K N = Nat.choose K N :=
    vertexWeight_eq_choose K N hNK K N hNK (by omega)
  have h := addrFrom_lt_weight K N hNK (bitIndices x) K
    (bitIndices_concat_top_sorted K x hx) (by rw [hlen]; omega)
  rw [hlen, hW] at h
  exact h

theorem dim_lt_word64 (K N : Nat) (hK : K ≤ 60) : Nat.choose K N < word64 := by
  have h1 : Nat.choose K N ≤ 2 ^ K := choose_le_two_pow K N
  have h2 : (2 : Nat) ^ K ≤ 2 ^ 60 := Nat.pow_le_pow_right (by norm_num) hK
  have h3 : (2 : Nat) ^ 60 < 2 ^ 64 := by norm_num
  unfold word64
  omega

theorem calcRep_getAddress (K N x : Nat) (hNK : N ≤ K) (hK : K ≤ 60)
    (hx : x < 2 ^ K) (hpc : popCount x = N) :
    calculateRepresentation K N (getAddress K N x) = x := by
  by_cases hN : N = 0
  · subst hN
    have hx0 : x = 0 := (popCount_eq_zero x).mp hpc
    subst hx0
    unfold calculateRepresentation
    simp
  · have hlen : (bitIndices x).length = N := by
      rw [← popCount_eq_length_bitIndices, hpc]
    have hqs_ne : bitIndices x ≠ [] := by
      intro h
      rw [h] at hlen
      simp at hlen
      exact hN hlen.symm
    have haddr_lt : addrFrom K N 1 (bitIndices x) < Nat.choose K N :=
      addrFrom_bitIndices_lt_dim K N x hNK hx hpc
    have hword : addrFrom K N 1 (bitIndices x) < word64 :=
      lt_trans haddr_lt (dim_lt_word64 K N hK)
    rw [getAddress_eq_addrFrom K N x hword]
    unfold calculateRepresentation
    rw [if_neg hN]
    have hloop := calcRepLoop_correct K N hNK K (bitIndices x) 0 hqs_ne
      (bitIndices_sorted x) (bitIndices_mem_lt K x hx) (by rw [hlen]; omega)
    rw [hlen] at hloop
    rw [hloop, Nat.zero_or, ofBits_bitIndices]

theorem calcRepLoop_inv (K N : Nat) (hNK : N ≤ K) :
    ∀ (c m addr rep : Nat), 1 ≤ m → addr < vertexWeight K N c m →
      c ≤ K - N + m →
      ∃ qs : List Nat, List.Pairwise (· < ·) qs ∧ qs.length = m ∧
        (∀ a ∈ qs, a < c) ∧ addrFrom K N 1 qs = addr ∧
        calcRepLoop K N c addr m rep = rep ||| ofBits qs := by
  intro c
  induction c with
  | zero =>
    intro m addr rep hm haddr _
    rw [vertexWeight_out_low K N 0 m (by omega)] at haddr
    omega
  | succ p ih =>
    intro m addr rep hm haddr hb
    have hmp : m ≤ p + 1 := by
      by_contra hc
      rw [vertexWeight_out_low K N (p + 1) m (by omega)] at haddr
      omega
    by_cases hw : vertexWeight K N p m ≤ addr
    · obtain ⟨mm, rfl⟩ : ∃ mm, m = mm + 1 := ⟨m - 1, by omega⟩
      have hrec : vertexWeight K N (p + 1) (mm + 1)
          = vertexWeight K N p (mm + 1) + vertexWeight K N p mm :=
        vertexWeight_rec K N p mm (by omega) (by omega)
      have haddr' : addr - vertexWeight K N p (mm + 1) < vertexWeight K N p mm := by
        omega
      simp only [calcRepLoop]
      rw [if_pos hw]
      simp only [Nat.add_sub_cancel]
      rcases Nat.eq_zero_or_pos mm with rfl | hmm
      · simp only [Nat.zero_add] at hw haddr' hrec haddr hb ⊢
        have hW0 : vertexWeight K N p 0 ≤ 1 := by
          rw [vertexWeight_zero]
          split <;> omega
        have haddr_eq : addr = vertexWeight K N p 1 := by omega
        refine ⟨[p], List.pairwise_singleton _ _, rfl, ?_, ?_, ?_⟩
        · intro a ha
          simp at ha
          omega
        · rw [addrFrom_cons, addrFrom_nil, haddr_eq]
          omega
        · simp [ofBits_cons, ofBits_nil]
      · obtain ⟨qs', hsort', hlen', hlt', haddr'', hres'⟩ :=
          ih mm (addr - vertexWeight K N p (mm + 1)) (rep ||| 2 ^ p)
            (by omega) haddr' (by omega)
        refine ⟨qs' ++ [p], ?_, ?_, ?_, ?_, ?_⟩
        · rw [List.pairwise_append]
          refine ⟨hsort', List.pairwise_singleton _ _, ?_⟩
          intro x hx y hy
          simp at hy
          rw [hy]
          exact hlt' x hx
        · simp [hlen']
        · intro a ha
          rcases List.mem_append.mp ha with h1 | h1
          · exact Nat.lt_succ_of_lt (hlt' a h1)
          · simp at h1
            omega
        · rw [addrFrom_append, addrFrom_cons, addrFrom_nil, hlen',
            show (1 : Nat) + mm = mm + 1 by omega]
          omega
        · rw [if_neg (by omega : ¬ mm = 0), hres', ofBits_append, ofBits_cons,
            ofBits_nil, Nat.or_zero, Nat.or_assoc, Nat.or_comm (2 ^ p)]
    · push_neg at hw
      obtain ⟨qs, hsort, hlen, hlt, haddr', hres⟩ := ih m addr rep hm hw (by omega)
      refine ⟨qs, hsort, hlen, fun a ha => Nat.lt_succ_of_lt (hlt a ha), haddr', ?_⟩
      simp only [calcRepLoop]
      rw [if_neg (Nat.not_le.mpr hw)]
      exact hres

theorem getAddress_calcRep (K N a : Nat) (hNK : N ≤ K) (hK : K ≤ 60)
    (ha : a < Nat.choose K N) :
    calculateRepresentation K N a < 2 ^ K ∧
    popCount (calculateRepresentation K N a) = N ∧
    getAddress K N (calculateRepresentation K N a) = a := by
  by_cases hN : N = 0
  · subst hN
    have ha0 : a = 0 := by
      rw [Nat.choose_zero_right] at ha
      omega
    subst ha0
    have hcr : calculateRepresentation K 0 0 = 0 := by
      unfold calculateRepresentation
      simp
    rw [hcr]
    refine ⟨Nat.pos_pow_of_pos _ (by norm_num), ?_, ?_⟩
    · rw [popCount]
      simp
    · unfold getAddress
      rw [getAddressLoop]
      simp
  · have hWK : vertexWeight K N K N = Nat.choose K N :=
      vertexWeight_eq_choose K N hNK K N hNK (by omega)
    obtain ⟨qs, hsort, hlen, hlt, haddr, hres⟩ :=
      calcRepLoop_inv K N hNK K N a 0 (by omega) (by rw [hWK]; exact ha) (by omega)
    have hcr : calculateRepresentation K N a = ofBits qs := by
      unfold calculateRepresentation
      rw [if_neg hN, hres, Nat.zero_or]
    rw [hcr]
    refine ⟨ofBits_lt_two_pow K qs hlt, ?_, ?_⟩
    · rw [popCount_eq_length_bitIndices, bitIndices_ofBits qs hsort, hlen]
    · have hword : addrFrom K N 1 (bitIndices (ofBits qs)) < word64 := by
        rw [bitIndices_ofBits qs hsort, haddr]
        exact lt_trans ha (dim_lt_word64 K N hK)
      rw [getAddress_eq_addrFrom _ _ _ hword, bitIndices_ofBits qs hsort, haddr]

theorem addrFrom_strict_mono (K N : Nat) (hNK : N ≤ K) :
    ∀ (n : Nat) (qs rs : List Nat), qs.length = n → rs.length = n →
      List.Pairwise (· < ·) qs → List.Pairwise (· < ·) rs →
      (∀ l2 d, rs = l2 ++ [d] → d ≤ K - N + l2.length) →
      ofBits qs < ofBits rs → addrFrom K N 1 qs < addrFrom K N 1 rs := by
  intro n
  induction n with
  | zero =>
    intro qs rs hq hr _ _ _ hlt
    rw [List.eq_nil_of_length_eq_zero hq, List.eq_nil_of_length_eq_zero hr] at hlt
    simp at hlt
  | succ n ih =>
    intro qs rs hq hr hsq hsr hband hlt
    rcases List.eq_nil_or_concat qs with rfl | ⟨l1, b, rfl⟩
    · simp at hq
    rcases List.eq_nil_or_concat rs with rfl | ⟨l2, d, rfl⟩
    · simp at hr
    simp only [List.concat_eq_append] at hq hr hsq hsr hband hlt ⊢
    have hlen1 : l1.length = n := by
      simp at hq
      omega
    have hlen2 : l2.length = n := by
      simp at hr
      omega
    have hd_band : d ≤ K - N + l2.length := hband l2 d rfl
    rw [List.pairwise_append] at hsq hsr
    obtain ⟨hpq, _, hrel1⟩ := hsq
    obtain ⟨hpr, _, hrel2⟩ := hsr
    have hrel1' : ∀ x ∈ l1, x < b := fun x hx => hrel1 x hx b (by simp)
    have hrel2' : ∀ x ∈ l2, x < d := fun x hx => hrel2 x hx d (by simp)
    have hq_of : ofBits (l1 ++ [b]) = ofBits l1 + 2 ^ b := by
      rw [ofBits_append, ofBits_cons, ofBits_nil, Nat.or_zero,
        or_two_pow_eq_add_of_lt b _ (ofBits_lt_two_pow b l1 hrel1')]
    have hr_of : ofBits (l2 ++ [d]) = ofBits l2 + 2 ^ d := by
      rw [ofBits_append, ofBits_cons, ofBits_nil, Nat.or_zero,
        or_two_pow_eq_add_of_lt d _ (ofBits_lt_two_pow d l2 hrel2')]
    rcases lt_trichotomy b d with hbd | hbd | hbd
    · have hF2 : addrFrom K N 1 (l1 ++ [b])
          < vertexWeight K N d ((l1 ++ [b]).length) := by
        apply addrFrom_lt_weight K N hNK _ d ?_ ?_
        · rw [List.pairwise_append]
          refine ⟨List.pairwise_append.mpr ⟨hpq, List.pairwise_singleton _ _, hrel1⟩,
            List.pairwise_singleton _ _, ?_⟩
          intro x hx y hy
          simp at hy
          rw [hy]
          rcases List.mem_append.mp hx with h1 | h1
          · exact lt_trans (hrel1' x h1) hbd
          · simp at h1
            omega
        · simp only [List.length_append, List.length_cons, List.length_nil]
          omega
      have hge : vertexWeight K N d (l2.length + 1) ≤ addrFrom K N 1 (l2 ++ [d]) := by
        rw [addrFrom_append, addrFrom_cons, addrFrom_nil,
          show (1 : Nat) + l2.length = l2.length + 1 by omega]
        omega
      have hlen_eq : (l1 ++ [b]).length = l2.length + 1 := by
        simp only [List.length_append, List.length_cons, List.length_nil]
        omega
      rw [hlen_eq] at hF2
      omega
    · subst hbd
      rw [addrFrom_append, addrFrom_append, addrFrom_cons, addrFrom_cons,
        addrFrom_nil, hlen1, hlen2]
      have hih : addrFrom K N 1 l1 < addrFrom K N 1 l2 := by
        apply ih l1 l2 hlen1 hlen2 hpq hpr ?_ (by omega)
        intro l2' d' heq
        have hd' : d' < b := hrel2' d' (by rw [heq]; simp)
        have hlen2' : l2.length = l2'.length + 1 := by
          rw [heq]
          simp
        omega
      omega
    · exfalso
      have h1 : 2 ^ b ≤ ofBits (l1 ++ [b]) := two_pow_le_ofBits b _ (by simp)
      have h2 : ofBits (l2 ++ [d]) < 2 ^ (d + 1) := by
        apply ofBits_lt_two_pow (d + 1)
        intro a ha
        rcases List.mem_append.mp ha with hh | hh
        · exact Nat.lt_succ_of_lt (hrel2' a hh)
        · simp at hh
          omega
      have h3 : (2 : Nat) ^ (d + 1) ≤ 2 ^ b := Nat.pow_le_pow_right (by norm_num) (by omega)
      omega

theorem getAddress_strict_mono (K N x y : Nat) (hNK : N ≤ K) (hK : K ≤ 60)
    (hx : x < 2 ^ K) (hpcx : popCount x = N) (hy : y < 2 ^ K)
    (hpcy : popCount y = N) (hxy : x < y) :
    getAddress K N x < getAddress K N y := by
  have hNpos : 1 ≤ N := by
    by_contra hc
    have hN0 : N = 0 := by omega
    rw [hN0] at hpcx hpcy
    have hx0 := (popCount_eq_zero x).mp hpcx
    have hy0 := (popCount_eq_zero y).mp hpcy
    omega
  have hlenx : (bitIndices x).length = N := by
    rw [← popCount_eq_length_bitIndices, hpcx]
  have hleny : (bitIndices y).length = N := by
    rw [← popCount_eq_length_bitIndices, hpcy]
  have hwx : addrFrom K N 1 (bitIndices x) < word64 :=
    lt_trans (addrFrom_bitIndices_lt_dim K N x hNK hx hpcx) (dim_lt_word64 K N hK)
  have hwy : addrFrom K N 1 (bitIndices y) < word64 :=
    lt_trans (addrFrom_bitIndices_lt_dim K N y hNK hy hpcy) (dim_lt_word64 K N hK)
  rw [getAddress_eq_addrFrom K N x hwx, getAddress_eq_addrFrom K N y hwy]
  apply addrFrom_strict_mono K N hNK N (bitIndices x) (bitIndices y) hlenx hleny
    (bitIndices_sorted x) (bitIndices_sorted y) ?_ ?_
  · intro l2 d heq
    have hd : d < K := bitIndices_mem_lt K y hy d (by rw [heq]; simp)
    have hl2 : l2.length + 1 = N := by
      rw [heq] at hleny
      simp at hleny
      omega
    omega
  · rw [ofBits_bitIndices, ofBits_bitIndices]
    exact hxy

/-- Claim C1: for every `(K, N)` with `0 ≤ N ≤ K ≤ 60`, `getAddress` maps the
valid ONV representations (K-bit patterns of popcount `N`) into `[0, dim)`,
`calculateRepresentation` inverts it there, and conversely every address below
the dimension is reached, with `calculateRepresentation` producing the unique
valid preimage — i.e. the addressing is a bijection with the stated inverse.
The theorem is stated for the intended `1UL << (p-1)` semantics of
`calculateRepresentation`; the shipped code computes `(1) << (p-1)` on a
32-bit `int`, which breaks exactly this claim for `K > 31` (see the C1 entry
of the results). -/
theorem address_representation_bijection (K N : Nat) (hNK : N ≤ K) (hK : K ≤ 60) :
    (∀ x, x < 2 ^ K → popCount x = N →
       calculateRepresentation K N (getAddress K N x) = x ∧
       getAddress K N x < calculateDimension K N) ∧
    (∀ a, a < calculateDimension K N →
       calculateRepresentation K N a < 2 ^ K ∧
       popCount (calculateRepresentation K N a) = N ∧
       getAddress K N (calculateRepresentation K N a) = a) := by
  constructor
  · intro x hx hpc
    refine ⟨calcRep_getAddress K N x hNK hK hx hpc, ?_⟩
    unfold calculateDimension
    have hword : addrFrom K N 1 (bitIndices x) < word64 :=
      lt_trans (addrFrom_bitIndices_lt_dim K N x hNK hx hpc) (dim_lt_word64 K N hK)
    rw [getAddress_eq_addrFrom K N x hword]
    exact addrFrom_bitIndices_lt_dim K N x hNK hx hpc
  · intro a ha
    exact getAddress_calcRep K N a hNK hK ha

/-- Witness for C1: the concrete pattern `0b1100` in `FockSpace(4, 2)`
round-trips through address 5, and address 5 round-trips back. -/
theorem address_representation_bijection_witness :
    (calculateRepresentation 4 2 (getAddress 4 2 12) = 12 ∧
      getAddress 4 2 12 < calculateDimension 4 2) ∧
    getAddress 4 2 (calculateRepresentation 4 2 5) = 5 := by
  constructor
  · exact (address_representation_bijection 4 2 (by norm_num) (by norm_num)).1 12
      (by norm_num) (by simp [popCount] <;> decide)
  · exact ((address_representation_bijection 4 2 (by norm_num) (by norm_num)).2 5
      (by rw [calculateDimension]; decide)).2.2

/-! ### Machine-word arithmetic normalization and the next-permutation trick -/

theorem add64_eq (a b : Nat) (h : a + b < word64) : add64 a b = a + b :=
  Nat.mod_eq_of_lt h

theorem sub64_eq (a b : Nat) (hba : b ≤ a) (ha : a < word64) :
    sub64 a b = a - b := by
  unfold sub64 word64 at *
  have hb : b % 2 ^ 64 = b := Nat.mod_eq_of_lt (by omega)
  rw [hb, show a + (2 ^ 64 - b) = (a - b) + 2 ^ 64 by omega, Nat.add_mod_right]
  exact Nat.mod_eq_of_lt (by omega)

theorem or_blocks (k A B A' B' : Nat) (hB : B < 2 ^ k) (hB' : B' < 2 ^ k) :
    (2 ^ k * A + B) ||| (2 ^ k * A' + B') = 2 ^ k * (A ||| A') + (B ||| B') := by
  apply Nat.eq_of_testBit_eq
  intro i
  rw [Nat.testBit_or, Nat.testBit_mul_pow_two_add A hB i,
    Nat.testBit_mul_pow_two_add A' hB' i,
    Nat.testBit_mul_pow_two_add (A ||| A') (Nat.or_lt_two_pow hB hB') i,
    Nat.testBit_or]
  by_cases hi : i < k <;> simp [hi, Nat.testBit_or]

theorem and_blocks (k A B A' B' : Nat) (hB : B < 2 ^ k) (hB' : B' < 2 ^ k) :
    (2 ^ k * A + B) &&& (2 ^ k * A' + B') = 2 ^ k * (A &&& A') + (B &&& B') := by
  apply Nat.eq_of_testBit_eq
  intro i
  rw [Nat.testBit_and, Nat.testBit_mul_pow_two_add A hB i,
    Nat.testBit_mul_pow_two_add A' hB' i,
    Nat.testBit_mul_pow_two_add (A &&& A')
      (Nat.and_lt_two_pow B hB') i,
    Nat.testBit_and]
  by_cases hi : i < k <;> simp [hi, Nat.testBit_and]

theorem or_odd_pred (y : Nat) (hy : y % 2 = 1) : y ||| (y - 1) = y := by
  obtain ⟨w, rfl⟩ : ∃ w, y = 2 * w + 1 := ⟨y / 2, by omega⟩
  have h1 : 2 * w + 1 - 1 = 2 * w + 0 := by omega
  rw [h1, show 2 * w + 1 = 2 ^ 1 * w + 1 by ring, show 2 * w + 0 = 2 ^ 1 * w + 0 by ring,
    or_blocks 1 w 1 w 0 (by norm_num) (by norm_num), Nat.or_self, Nat.or_zero]

theorem popCount_eq_mod_add (b : Nat) : popCount b = b % 2 + popCount (b / 2) := by
  by_cases h : b = 0
  · subst h
    rw [popCount]
    simp [popCount]
  · conv_lhs => rw [popCount]
    rw [if_neg h]

theorem popCount_block (k : Nat) :
    ∀ (a b : Nat), b < 2 ^ k → popCount (2 ^ k * a + b) = popCount a + popCount b := by
  induction k with
  | zero =>
    intro a b hb
    have hb0 : b = 0 := by omega
    subst hb0
    have h0 : popCount 0 = 0 := by
      rw [popCount]
      simp
    rw [show 2 ^ 0 * a + 0 = a by ring, h0]
    omega
  | succ k ih =>
    intro a b hb
    have hsplit : 2 ^ (k + 1) * a + b = 2 * (2 ^ k * a + b / 2) + b % 2 := by
      have h1 : 2 ^ (k + 1) * a = 2 * (2 ^ k * a) := by ring
      omega
    rw [hsplit]
    have hhalf : b / 2 < 2 ^ k := by omega
    have hform : popCount (2 * (2 ^ k * a + b / 2) + b % 2)
        = b % 2 + popCount (2 ^ k * a + b / 2) := by
      rcases Nat.mod_two_eq_zero_or_one b with h2 | h2
      · rw [h2, Nat.add_zero, popCount_two_mul, Nat.zero_add]
      · rw [h2]
        have h3 : 2 * (2 ^ k * a + b / 2) % 2 = 0 := by omega
        rw [popCount_eq_mod_add]
        have h4 : (2 * (2 ^ k * a + b / 2) + 1) % 2 = 1 := by omega
        have h5 : (2 * (2 ^ k * a + b / 2) + 1) / 2 = 2 ^ k * a + b / 2 := by omega
        rw [h4, h5]
    rw [hform, ih a (b / 2) hhalf, popCount_eq_mod_add b]
    omega

theorem popCount_two_pow_sub_one (k : Nat) : popCount (2 ^ k - 1) = k := by
  induction k with
  | zero =>
    rw [popCount]
    simp
  | succ k ih =>
    have hsplit : 2 ^ (k + 1) - 1 = 2 * (2 ^ k - 1) + 1 := by
      have h1 : (2 : Nat) ^ (k + 1) = 2 * 2 ^ k := by ring
      have h2 : (1 : Nat) ≤ 2 ^ k := Nat.pos_pow_of_pos _ (by norm_num)
      omega
    rw [hsplit, popCount_eq_mod_add]
    have h4 : (2 * (2 ^ k - 1) + 1) % 2 = 1 := by omega
    have h5 : (2 * (2 ^ k - 1) + 1) / 2 = 2 ^ k - 1 := by omega
    rw [h4, h5, ih]
    omega

theorem popCount_le_of_lt (k : Nat) :
    ∀ b, b < 2 ^ k → popCount b ≤ k := by
  induction k with
  | zero =>
    intro b hb
    have : b = 0 := by omega
    subst this
    rw [popCount]
    simp
  | succ k ih =>
    intro b hb
    rw [popCount_eq_mod_add]
    have := ih (b / 2) (by omega)
    omega

theorem popCount_max_eq_all_ones (k : Nat) :
    ∀ b, b < 2 ^ k → popCount b = k → b = 2 ^ k - 1 := by
  induction k with
  | zero =>
    intro b hb _
    omega
  | succ k ih =>
    intro b hb hp
    rw [popCount_eq_mod_add] at hp
    have hle : popCount (b / 2) ≤ k := popCount_le_of_lt k (b / 2) (by omega)
    have hm : b % 2 = 1 := by omega
    have hp2 : popCount (b / 2) = k := by omega
    have := ih (b / 2) (by omega) hp2
    have h2 : (2 : Nat) ^ (k + 1) = 2 * 2 ^ k := by ring
    have h3 : (1 : Nat) ≤ 2 ^ k := Nat.pos_pow_of_pos _ (by norm_num)
    omega

theorem testBit_succ_of_even (u i : Nat) (hu : u % 2 = 0) (hi : 1 ≤ i) :
    (u + 1).testBit i = u.testBit i := by
  obtain ⟨j, rfl⟩ : ∃ j, i = j + 1 := ⟨i - 1, by omega⟩
  rw [Nat.testBit_add_one, Nat.testBit_add_one,
    show (u + 1) / 2 = u / 2 by omega]

theorem two_pow_sub_one_div (a b : Nat) : (2 ^ (a + b) - 1) / 2 ^ a = 2 ^ b - 1 := by
  have hpa : (1 : Nat) ≤ 2 ^ a := Nat.pos_pow_of_pos _ (by norm_num)
  have hpb : (1 : Nat) ≤ 2 ^ b := Nat.pos_pow_of_pos _ (by norm_num)
  have h1 : 2 ^ (a + b) - 1 = 2 ^ a * (2 ^ b - 1) + (2 ^ a - 1) := by
    obtain ⟨z, hz⟩ : ∃ z, (2 : Nat) ^ b = z + 1 := ⟨2 ^ b - 1, by omega⟩
    have hab : (2 : Nat) ^ (a + b) = 2 ^ a * 2 ^ b := pow_add 2 a b
    have haz : 2 ^ a * (z + 1) = 2 ^ a * z + 2 ^ a := by ring
    rw [hz] at hab
    simp only [hz, Nat.add_sub_cancel]
    omega
  rw [h1, Nat.mul_add_div (by omega), Nat.div_eq_of_lt (by omega)]
  omega

theorem next_perm_decomposition (x : Nat) (hx0 : x ≠ 0) :
    ∃ o u, 1 ≤ o ∧ u % 2 = 0 ∧
      x = 2 ^ (ctz x + o) * u + 2 ^ ctz x * (2 ^ o - 1) := by
  obtain ⟨y, hy, hxe⟩ := ctz_spec x hx0
  obtain ⟨v, hv, hye⟩ := ctz_spec (y + 1) (by omega)
  obtain ⟨w, rfl⟩ : ∃ w, v = w + 1 := ⟨v - 1, by omega⟩
  set c := ctz x with hc
  set o := ctz (y + 1) with ho
  have hopos : 1 ≤ o := by
    by_contra hoc
    have ho0 : o = 0 := by omega
    rw [ho0, pow_zero, one_mul] at hye
    omega
  refine ⟨o, w, hopos, by omega, ?_⟩
  have hCo : 2 ^ o * (w + 1) = 2 ^ o * w + 2 ^ o := by ring
  have hpo : (1 : Nat) ≤ 2 ^ o := Nat.pos_pow_of_pos _ (by norm_num)
  have hyw : y = 2 ^ o * w + (2 ^ o - 1) := by omega
  calc x = 2 ^ c * y := hxe
  _ = 2 ^ c * (2 ^ o * w + (2 ^ o - 1)) := by rw [← hyw]
  _ = 2 ^ (c + o) * w + 2 ^ c * (2 ^ o - 1) := by
      rw [Nat.mul_add, ← Nat.mul_assoc, ← pow_add]

theorem ulongNextPermutation_closed (c o u : Nat) (ho : 1 ≤ o) (hu : u % 2 = 0)
    (hbound : 2 ^ (c + o) * u + 2 ^ c * (2 ^ o - 1) < 2 ^ 62) :
    ulongNextPermutation (2 ^ (c + o) * u + 2 ^ c * (2 ^ o - 1))
      = 2 ^ (c + o) * (u + 1) + (2 ^ (o - 1) - 1) := by
  have hT1 : (1 : Nat) ≤ 2 ^ (c + o) := Nat.pos_pow_of_pos _ (by norm_num)
  have hc1 : (1 : Nat) ≤ 2 ^ c := Nat.pos_pow_of_pos _ (by norm_num)
  have ho2 : (2 : Nat) ≤ 2 ^ o := by
    calc (2 : Nat) = 2 ^ 1 := by norm_num
    _ ≤ 2 ^ o := Nat.pow_le_pow_right (by norm_num) ho
  have hcsplit : 2 ^ c * (2 ^ o - 1) + 2 ^ c = 2 ^ (c + o) := by
    obtain ⟨z, hz⟩ : ∃ z, (2 : Nat) ^ o = z + 1 := ⟨2 ^ o - 1, by omega⟩
    have hab : (2 : Nat) ^ (c + o) = 2 ^ c * 2 ^ o := pow_add 2 c o
    have haz : 2 ^ c * (z + 1) = 2 ^ c * z + 2 ^ c := by ring
    rw [hz] at hab
    simp only [hz, Nat.add_sub_cancel]
    omega
  set x := 2 ^ (c + o) * u + 2 ^ c * (2 ^ o - 1) with hx
  have hxc : 2 ^ c ≤ x := by
    have h21 : 2 ^ c * 1 ≤ 2 ^ c * (2 ^ o - 1) :=
      Nat.mul_le_mul_left _ (by omega)
    have h22 : 2 ^ c * 1 = 2 ^ c := by ring
    omega
  have hx0 : x ≠ 0 := by omega
  have hco_le : c + o ≤ 62 := by
    by_contra hgt
    have h63 : (2 : Nat) ^ 63 ≤ 2 ^ (c + o) := Nat.pow_le_pow_right (by norm_num) (by omega)
    have hc62 : (2 : Nat) ^ c ≤ 2 ^ 62 := Nat.pow_le_pow_right (by norm_num) (by omega)
    have h6363 : (2 : Nat) ^ 63 = 2 ^ 62 + 2 ^ 62 := by norm_num
    omega
  have hTle : (2 : Nat) ^ (c + o) ≤ 2 ^ 62 := Nat.pow_le_pow_right (by norm_num) hco_le
  have hx64 : x < word64 := by
    unfold word64
    have : (2 : Nat) ^ 62 ≤ 2 ^ 64 := by norm_num
    omega
  -- the odd cofactor
  have hyodd : (2 ^ o * u + (2 ^ o - 1)) % 2 = 1 := by
    have h2 : (2 : Nat) ∣ 2 ^ o := dvd_pow_self 2 (by omega)
    have h3 : (2 : Nat) ∣ 2 ^ o * u := h2.mul_right u
    omega
  have hxy : x = 2 ^ c * (2 ^ o * u + (2 ^ o - 1)) := by
    rw [hx, Nat.mul_add, ← Nat.mul_assoc, ← pow_add]
  have hctz : ctz x = c := by
    rw [hxy]
    exact ctz_two_pow_mul_odd c _ hyodd
  set y := 2 ^ o * u + (2 ^ o - 1) with hy
  have hy1 : 1 ≤ y := by omega
  have hysplit : 2 ^ c * y = 2 ^ c * (y - 1) + 2 ^ c := by
    obtain ⟨z, hz⟩ : ∃ z, y = z + 1 := ⟨y - 1, by omega⟩
    have : 2 ^ c * (z + 1) = 2 ^ c * z + 2 ^ c := by ring
    simp only [hz, Nat.add_sub_cancel]
    omega
  have hxm1 : x - 1 = 2 ^ c * (y - 1) + (2 ^ c - 1) := by
    rw [hxy]
    omega
  -- t = x | (x-1)
  have ht2 : x ||| (x - 1) = 2 ^ (c + o) * u + (2 ^ (c + o) - 1) := by
    rw [hxm1]
    conv_lhs => rw [hxy, show 2 ^ c * y = 2 ^ c * y + 0 by omega]
    rw [or_blocks c y 0 (y - 1) (2 ^ c - 1) (by omega) (by omega),
      or_odd_pred y hyodd, Nat.zero_or]
    rw [hy]
    have hdistrib : 2 ^ c * (2 ^ o * u + (2 ^ o - 1))
        = 2 ^ (c + o) * u + 2 ^ c * (2 ^ o - 1) := by
      rw [Nat.mul_add, ← Nat.mul_assoc, ← pow_add]
    omega
  -- quantities for the complement
  have hTE : 2 ^ (c + o) * 2 ^ (64 - (c + o)) = 2 ^ 64 := by
    rw [← pow_add]
    congr 1
    omega
  have huE : u < 2 ^ (64 - (c + o)) := by
    have h1 : 2 ^ (c + o) * u < 2 ^ 64 := by
      unfold word64 at hx64
      omega
    rw [← hTE] at h1
    exact Nat.lt_of_mul_lt_mul_left h1
  set w := 2 ^ (64 - (c + o)) - u - 1 with hwdef
  have hTE2 : 2 ^ 64 = 2 ^ (c + o) * u + 2 ^ (c + o) + 2 ^ (c + o) * w := by
    have hEw : 2 ^ (64 - (c + o)) = u + 1 + w := by omega
    calc (2 : Nat) ^ 64 = 2 ^ (c + o) * 2 ^ (64 - (c + o)) := hTE.symm
    _ = 2 ^ (c + o) * (u + 1 + w) := by rw [hEw]
    _ = 2 ^ (c + o) * u + 2 ^ (c + o) + 2 ^ (c + o) * w := by ring
  -- the and-computation
  have hw_and : w &&& (u + 1) = 1 := by
    apply Nat.eq_of_testBit_eq
    intro i
    rw [Nat.testBit_and]
    have hn1 : 1 ≤ 64 - (c + o) := by omega
    have hw_bit : ∀ j, w.testBit j
        = (decide (j < 64 - (c + o)) && !u.testBit j) := by
      intro j
      rw [show w = 2 ^ (64 - (c + o)) - (u + 1) by omega]
      exact Nat.testBit_two_pow_sub_succ huE j
    cases i with
    | zero =>
      rw [hw_bit 0]
      have hu0 : u.testBit 0 = false := by
        rw [Nat.testBit_zero]
        simp
        omega
      have hu1 : (u + 1).testBit 0 = true := by
        rw [Nat.testBit_zero]
        simp
        omega
      have h10 : Nat.testBit 1 0 = true := by decide
      rw [hu0, hu1, h10]
      simp [hn1]
      omega
    | succ j =>
      rw [hw_bit (j + 1), testBit_succ_of_even u (j + 1) hu (by omega)]
      have h1b : Nat.testBit 1 (j + 1) = false := by
        rw [Nat.testBit_add_one]
        simp
      rw [h1b]
      cases hub : u.testBit (j + 1) <;> simp [hub]
  -- now assemble
  show add64 (x ||| sub64 x 1) 1 |||
      (sub64 ((word64 - 1 - (x ||| sub64 x 1)) &&& add64 (x ||| sub64 x 1) 1) 1
        >>> (ctz x + 1)) = _
  rw [sub64_eq x 1 (by omega) hx64, ht2]
  have htv64 : 2 ^ (c + o) * u + (2 ^ (c + o) - 1) + 1 < word64 := by
    unfold word64
    omega
  rw [add64_eq _ 1 htv64]
  have htp1 : 2 ^ (c + o) * u + (2 ^ (c + o) - 1) + 1 = 2 ^ (c + o) * (u + 1) := by
    have : 2 ^ (c + o) * (u + 1) = 2 ^ (c + o) * u + 2 ^ (c + o) := by ring
    omega
  rw [htp1]
  have hcomp : word64 - 1 - (2 ^ (c + o) * u + (2 ^ (c + o) - 1)) = 2 ^ (c + o) * w := by
    unfold word64
    omega
  rw [hcomp]
  have hand : 2 ^ (c + o) * w &&& 2 ^ (c + o) * (u + 1) = 2 ^ (c + o) := by
    have hb1 : (0 : Nat) < 2 ^ (c + o) := by omega
    have := and_blocks (c + o) w 0 (u + 1) 0 hb1 hb1
    rw [Nat.add_zero, Nat.add_zero] at this
    rw [this, hw_and]
    have hz : (0 : Nat) &&& 0 = 0 := by decide
    rw [hz]
    ring
  rw [hand, sub64_eq _ 1 (by omega) (by unfold word64; omega), hctz]
  have hshift : (2 ^ (c + o) - 1) >>> (c + 1) = 2 ^ (o - 1) - 1 := by
    rw [Nat.shiftRight_eq_div_pow,
      show c + o = (c + 1) + (o - 1) by omega, two_pow_sub_one_div]
  rw [hshift]
  have hlow : 2 ^ (o - 1) - 1 < 2 ^ (c + o) := by
    have : (2 : Nat) ^ (o - 1) ≤ 2 ^ (c + o) := Nat.pow_le_pow_right (by norm_num) (by omega)
    omega
  have hfinal := or_blocks (c + o) (u + 1) 0 0 (2 ^ (o - 1) - 1) (by omega) hlow
  rw [Nat.add_zero, Nat.mul_zero, Nat.zero_add] at hfinal
  rw [hfinal, Nat.or_zero, Nat.zero_or]

theorem popCount_block_form (c o u : Nat) :
    popCount (2 ^ (c + o) * u + 2 ^ c * (2 ^ o - 1)) = popCount u + o := by
  have ho1 : (1 : Nat) ≤ 2 ^ o := Nat.pos_pow_of_pos _ (by norm_num)
  have h1 : 2 ^ (c + o) * u + 2 ^ c * (2 ^ o - 1) = 2 ^ c * (2 ^ o * u + (2 ^ o - 1)) := by
    rw [Nat.mul_add, ← Nat.mul_assoc, ← pow_add]
  have h0 : popCount 0 = 0 := (popCount_eq_zero 0).mpr rfl
  rw [h1,
    show 2 ^ c * (2 ^ o * u + (2 ^ o - 1)) = 2 ^ c * (2 ^ o * u + (2 ^ o - 1)) + 0 by omega,
    popCount_block c _ 0 (Nat.pos_pow_of_pos _ (by norm_num)),
    popCount_block o u (2 ^ o - 1) (by omega), h0, popCount_two_pow_sub_one]
  omega

theorem next_perm_minimal (c o u z : Nat) (ho : 1 ≤ o) (hu : u % 2 = 0)
    (hxz : 2 ^ (c + o) * u + 2 ^ c * (2 ^ o - 1) < z)
    (hpc : popCount z = popCount u + o) :
    2 ^ (c + o) * (u + 1) + (2 ^ (o - 1) - 1) ≤ z := by
  by_contra hlt
  push_neg at hlt
  have hT1 : (1 : Nat) ≤ 2 ^ (c + o) := Nat.pos_pow_of_pos _ (by norm_num)
  have hM1 : (1 : Nat) ≤ 2 ^ c := Nat.pos_pow_of_pos _ (by norm_num)
  have ho2 : (2 : Nat) ≤ 2 ^ o := by
    calc (2 : Nat) = 2 ^ 1 := by norm_num
    _ ≤ 2 ^ o := Nat.pow_le_pow_right (by norm_num) ho
  have hcsplit : 2 ^ c * (2 ^ o - 1) + 2 ^ c = 2 ^ (c + o) := by
    obtain ⟨zv, hz⟩ : ∃ zv, (2 : Nat) ^ o = zv + 1 := ⟨2 ^ o - 1, by omega⟩
    have hab : (2 : Nat) ^ (c + o) = 2 ^ c * 2 ^ o := pow_add 2 c o
    have haz : 2 ^ c * (zv + 1) = 2 ^ c * zv + 2 ^ c := by ring
    rw [hz] at hab
    simp only [hz, Nat.add_sub_cancel]
    omega
  have hTu1 : 2 ^ (c + o) * (u + 1) = 2 ^ (c + o) * u + 2 ^ (c + o) := by ring
  have hTu2 : (u + 2) * 2 ^ (c + o) = 2 ^ (c + o) * (u + 1) + 2 ^ (c + o) := by ring
  have hsmall : 2 ^ (o - 1) - 1 < 2 ^ (c + o) := by
    have : (2 : Nat) ^ (o - 1) ≤ 2 ^ (c + o) := Nat.pow_le_pow_right (by norm_num) (by omega)
    omega
  -- quotient-remainder split of z at the block boundary
  have hdm := Nat.div_add_mod z (2 ^ (c + o))
  obtain ⟨q, hq_def⟩ : ∃ q, q = z / 2 ^ (c + o) := ⟨_, rfl⟩
  obtain ⟨r, hr_def⟩ : ∃ r, r = z % 2 ^ (c + o) := ⟨_, rfl⟩
  rw [← hq_def, ← hr_def] at hdm
  have hrT : r < 2 ^ (c + o) := by
    rw [hr_def]
    exact Nat.mod_lt _ (by omega)
  have hq_ge : u ≤ q := by
    rw [hq_def]
    refine (Nat.le_div_iff_mul_le (by omega)).mpr ?_
    have : u * 2 ^ (c + o) = 2 ^ (c + o) * u := mul_comm _ _
    omega
  have hq_lt : q < u + 2 := by
    rw [hq_def]
    refine (Nat.div_lt_iff_lt_mul (by omega)).mpr ?_
    omega
  have hqu : q = u ∨ q = u + 1 := by omega
  have hzpc : popCount z = popCount q + popCount r := by
    rw [← hdm]
    exact popCount_block (c + o) q r hrT
  rcases hqu with hq | hq
  · subst hq
    -- remainder exceeds the low block of x
    have hr_gt : 2 ^ c * (2 ^ o - 1) < r := by omega
    have hs_lt : r - 2 ^ c * (2 ^ o - 1) < 2 ^ c := by omega
    have hrs : r = 2 ^ c * (2 ^ o - 1) + (r - 2 ^ c * (2 ^ o - 1)) := by omega
    have hpr : popCount r = o + popCount (r - 2 ^ c * (2 ^ o - 1)) := by
      conv_lhs => rw [hrs]
      rw [popCount_block c _ _ hs_lt, popCount_two_pow_sub_one]
    have hps : 1 ≤ popCount (r - 2 ^ c * (2 ^ o - 1)) := by
      rcases Nat.eq_zero_or_pos (popCount (r - 2 ^ c * (2 ^ o - 1))) with h | h
      · have := (popCount_eq_zero _).mp h
        omega
      · omega
    omega
  · subst hq
    have hr_lt : r < 2 ^ (o - 1) - 1 := by omega
    have hpu1 : popCount (u + 1) = popCount u + 1 := popCount_succ_of_even u hu
    have hpr_le : popCount r ≤ o - 1 := popCount_le_of_lt (o - 1) r (by omega)
    have hpr_ne : popCount r ≠ o - 1 := by
      intro heq
      have := popCount_max_eq_all_ones (o - 1) r (by omega) heq
      omega
    omega

theorem ulongNextPermutation_spec (x : Nat) (hx0 : x ≠ 0) (hx : x < 2 ^ 62) :
    x < ulongNextPermutation x ∧
    popCount (ulongNextPermutation x) = popCount x ∧
    ∀ z, x < z → popCount z = popCount x → ulongNextPermutation x ≤ z := by
  obtain ⟨o, u, ho, hu, hxe⟩ := next_perm_decomposition x hx0
  set c := ctz x with hc
  have hT1 : (1 : Nat) ≤ 2 ^ (c + o) := Nat.pos_pow_of_pos _ (by norm_num)
  have hM1 : (1 : Nat) ≤ 2 ^ c := Nat.pos_pow_of_pos _ (by norm_num)
  have ho2 : (2 : Nat) ≤ 2 ^ o := by
    calc (2 : Nat) = 2 ^ 1 := by norm_num
    _ ≤ 2 ^ o := Nat.pow_le_pow_right (by norm_num) ho
  have hcsplit : 2 ^ c * (2 ^ o - 1) + 2 ^ c = 2 ^ (c + o) := by
    obtain ⟨zv, hz⟩ : ∃ zv, (2 : Nat) ^ o = zv + 1 := ⟨2 ^ o - 1, by omega⟩
    have hab : (2 : Nat) ^ (c + o) = 2 ^ c * 2 ^ o := pow_add 2 c o
    have haz : 2 ^ c * (zv + 1) = 2 ^ c * zv + 2 ^ c := by ring
    rw [hz] at hab
    simp only [hz, Nat.add_sub_cancel]
    omega
  have hTu1 : 2 ^ (c + o) * (u + 1) = 2 ^ (c + o) * u + 2 ^ (c + o) := by ring
  have hclosed : ulongNextPermutation x
      = 2 ^ (c + o) * (u + 1) + (2 ^ (o - 1) - 1) := by
    rw [hxe] at hx ⊢
    exact ulongNextPermutation_closed c o u ho hu hx
  have hpx : popCount x = popCount u + o := by
    rw [hxe]
    exact popCount_block_form c o u
  refine ⟨?_, ?_, ?_⟩
  · rw [hclosed]
    conv_lhs => rw [hxe]
    omega
  · rw [hclosed, hpx, popCount_block (c + o) (u + 1) _ (by
      have : (2 : Nat) ^ (o - 1) ≤ 2 ^ (c + o) := Nat.pow_le_pow_right (by norm_num) (by omega)
      omega), popCount_two_pow_sub_one, popCount_succ_of_even u hu]
    omega
  · intro z hzx hpz
    rw [hclosed]
    rw [hxe] at hzx
    exact next_perm_minimal c o u z ho hu hzx (by omega)

theorem add64_sub64 (x a b : Nat) (hb : b ≤ x + a) (hx : x + a < word64)
    (hb64 : b < word64) : add64 x (sub64 a b) = x + a - b := by
  unfold add64 sub64 word64 at *
  omega

theorem ulongNextPermutation_succ (K N x : Nat) (hNK : N ≤ K) (hK : K ≤ 60)
    (hN : 1 ≤ N) (hx : x < 2 ^ K) (hpc : popCount x = N)
    (hnext : getAddress K N x + 1 < Nat.choose K N) :
    ulongNextPermutation x = calculateRepresentation K N (getAddress K N x + 1) := by
  obtain ⟨hy_lt, hy_pc, hy_addr⟩ := getAddress_calcRep K N (getAddress K N x + 1) hNK hK hnext
  have hx0 : x ≠ 0 := by
    intro h
    rw [h] at hpc
    have h0 : popCount 0 = 0 := (popCount_eq_zero 0).mpr rfl
    omega
  have hx62 : x < 2 ^ 62 :=
    lt_of_lt_of_le hx (Nat.pow_le_pow_right (by norm_num) (by omega))
  obtain ⟨hlt, hpc_next, hmin⟩ := ulongNextPermutation_spec x hx0 hx62
  have hxy : x < calculateRepresentation K N (getAddress K N x + 1) := by
    rcases Nat.lt_trichotomy x (calculateRepresentation K N (getAddress K N x + 1))
      with h | h | h
    · exact h
    · exfalso
      rw [← h] at hy_addr
      omega
    · exfalso
      have := getAddress_strict_mono K N _ x hNK hK hy_lt hy_pc hx hpc h
      omega
  have hle : ulongNextPermutation x ≤ calculateRepresentation K N (getAddress K N x + 1) :=
    hmin _ hxy (by omega)
  have hnext_lt : ulongNextPermutation x < 2 ^ K := lt_of_le_of_lt hle hy_lt
  have haddr_gt : getAddress K N x < getAddress K N (ulongNextPermutation x) :=
    getAddress_strict_mono K N x _ hNK hK hx hpc hnext_lt (by omega) hlt
  rcases Nat.lt_or_ge (ulongNextPermutation x)
      (calculateRepresentation K N (getAddress K N x + 1)) with h | h
  · have := getAddress_strict_mono K N _ _ hNK hK hnext_lt (by omega) hy_lt hy_pc h
    omega
  · omega

theorem onvAt_zero (K N : Nat) : onvAt K N 0 = calculateRepresentation K N 0 := rfl

theorem onvAt_succ (K N I : Nat) :
    onvAt K N (I + 1) = ulongNextPermutation (onvAt K N I) :=
  Function.iterate_succ_apply' _ _ _

theorem onvAt_valid (K N : Nat) (hNK : N ≤ K) (hK : K ≤ 60) :
    ∀ I, I < Nat.choose K N →
      onvAt K N I < 2 ^ K ∧ popCount (onvAt K N I) = N ∧
        getAddress K N (onvAt K N I) = I := by
  intro I
  induction I with
  | zero =>
    intro h0
    rw [onvAt_zero]
    exact getAddress_calcRep K N 0 hNK hK h0
  | succ I ih =>
    intro hI
    obtain ⟨h1, h2, h3⟩ := ih (by omega)
    have hN : 1 ≤ N := by
      by_contra hc
      have hN0 : N = 0 := by omega
      rw [hN0, Nat.choose_zero_right] at hI
      omega
    rw [onvAt_succ, ulongNextPermutation_succ K N _ hNK hK hN h1 h2 (by omega), h3]
    exact getAddress_calcRep K N (I + 1) hNK hK hI

theorem vertexWeight_le_two_pow (K N p m : Nat) (hNK : N ≤ K) :
    vertexWeight K N p m ≤ 2 ^ p := by
  by_cases hlow : p < m
  · rw [vertexWeight_out_low _ _ _ _ hlow]
    exact Nat.zero_le _
  by_cases hhigh : K - N + m < p
  · rw [vertexWeight_out_high _ _ _ _ hhigh]
    exact Nat.zero_le _
  rw [vertexWeight_eq_choose K N hNK p m (by omega) (by omega)]
  exact choose_le_two_pow p m

theorem addrFrom_le_ofBits (K N : Nat) (hNK : N ≤ K) :
    ∀ (l : List Nat) (c : Nat), List.Pairwise (· < ·) l →
      addrFrom K N c l ≤ ofBits l := by
  intro l
  induction l with
  | nil =>
    intro c _
    rw [addrFrom_nil, ofBits_nil]
  | cons a l ih =>
    intro c hsort
    rw [addrFrom_cons,
      ofBits_sorted_cons_eq_add a l (fun x hx => (List.pairwise_cons.mp hsort).1 x hx)]
    have h1 := vertexWeight_le_two_pow K N a c hNK
    have h2 := ih (c + 1) (List.pairwise_cons.mp hsort).2
    omega

theorem addrFrom_sorted_lt_dim (K N : Nat) (hNK : N ≤ K) (l : List Nat)
    (hlen : l.length = N) (hsort : List.Pairwise (· < ·) l)
    (hlt : ∀ a ∈ l, a < K) :
    addrFrom K N 1 l < Nat.choose K N := by
  have hconcat : List.Pairwise (· < ·) (l ++ [K]) := by
    rw [List.pairwise_append]
    refine ⟨hsort, List.pairwise_singleton _ _, ?_⟩
    intro a ha b hb
    rw [List.mem_singleton] at hb
    rw [hb]
    exact hlt a ha
  have h := addrFrom_lt_weight K N hNK l K hconcat (by omega)
  rw [hlen] at h
  rw [vertexWeight_eq_choose K N hNK K N hNK (by omega)] at h
  exact h

theorem ofBits_sorted_eq_sum (l : List Nat) (h : List.Pairwise (· < ·) l) :
    ofBits l = (l.map (2 ^ ·)).sum := by
  induction l with
  | nil => rw [ofBits_nil, List.map_nil, List.sum_nil]
  | cons a l ih =>
    rw [ofBits_sorted_cons_eq_add a l (fun x hx => (List.pairwise_cons.mp h).1 x hx),
      List.map_cons, List.sum_cons, ih (List.pairwise_cons.mp h).2]

theorem dociCouplingLoop_char (K N : Nat) (hNK : N ≤ K) (hK : K ≤ 60) (rep : Nat)
    (hrepK : rep < 2 ^ K) :
    ∀ fuel q, fuel = K - q →
    ∀ (A rest front : List Nat),
      bitIndices rep = front ++ rest →
      front.length = A.length + 1 →
      A.length + 1 + rest.length = N →
      List.Pairwise (· < ·) (A ++ rest) →
      (∀ a ∈ A, a < q) →
      (∀ r ∈ rest.take 1, q ≤ r) →
      q ≤ K →
      ∀ q1 J, (q1, J) ∈ dociCouplingLoop K N rep
          ⟨addrFrom K N 1 A + addrFrom K N (A.length + 2) rest, q, A.length + 1⟩ →
        ∃ C D, rest = C ++ D ∧ q ≤ q1 ∧ q1 < K ∧
          (∀ c ∈ C, c < q1) ∧ (∀ d ∈ D, q1 < d) ∧
          J = addrFrom K N 1 (A ++ C ++ [q1] ++ D) := by
  intro fuel
  induction fuel using Nat.strong_induction_on with
  | _ fuel ih =>
    intro q hfuel A rest front hsplit hflen hlen hsort hAq hqrest hqK q1 J hmem
    -- facts shared by all branches
    have hsortA : List.Pairwise (· < ·) A := (List.pairwise_append.mp hsort).1
    have hsortR : List.Pairwise (· < ·) rest := (List.pairwise_append.mp hsort).2.1
    have hAR : ∀ a ∈ A, ∀ r ∈ rest, a < r := (List.pairwise_append.mp hsort).2.2
    have hAK : ∀ a ∈ A, a < K := fun a ha => by
      have := hAq a ha
      omega
    have hRK : ∀ r ∈ rest, r < K := fun r hr => by
      refine bitIndices_mem_lt K rep hrepK r ?_
      rw [hsplit]
      exact List.mem_append_right _ hr
    have hEA : addrFrom K N 1 A ≤ ofBits A := addrFrom_le_ofBits K N hNK A 1 hsortA
    have hER : addrFrom K N (A.length + 2) rest ≤ ofBits rest :=
      addrFrom_le_ofBits K N hNK rest _ hsortR
    have hofA : ofBits A < 2 ^ K := ofBits_lt_two_pow K A hAK
    have hofR : ofBits rest < 2 ^ K := ofBits_lt_two_pow K rest hRK
    have h2K : (2 : Nat) ^ K ≤ 2 ^ 60 := Nat.pow_le_pow_right (by norm_num) hK
    have hword : (2 : Nat) ^ 60 * 8 ≤ word64 := by
      unfold word64
      norm_num
    rw [dociCouplingLoop.eq_def] at hmem
    dsimp only at hmem
    by_cases h1 : A.length + 1 < N ∧ q = occupationIndex rep (A.length + 1)
    · rw [dif_pos h1] at hmem
      -- crossing an occupied orbital
      obtain ⟨d, rest', rfl⟩ : ∃ d r, rest = d :: r := by
        cases rest with
        | nil =>
          exfalso
          simp at hlen
          omega
        | cons d r => exact ⟨d, r, rfl⟩
      have hocc : occupationIndex rep (A.length + 1) = d := by
        unfold occupationIndex
        rw [hsplit, List.getD_append_right _ _ _ _ (by omega), hflen]
        simp
      have hqd : q = d := by rw [h1.2, hocc]
      have hdK : d < K := hRK d (by simp)
      have hdrest : ∀ r ∈ rest', d < r := fun r hr =>
        (List.pairwise_cons.mp hsortR).1 r hr
      -- the exact value of the updated address
      have hWq1 := vertexWeight_le_two_pow K N q (A.length + 1) hNK
      have hWq2 := vertexWeight_le_two_pow K N q (A.length + 2) hNK
      have h2q : (2 : Nat) ^ q ≤ 2 ^ K := Nat.pow_le_pow_right (by norm_num) (by omega)
      have hEd : addrFrom K N (A.length + 2) (d :: rest')
          = vertexWeight K N d (A.length + 2) + addrFrom K N (A.length + 3) rest' := by
        rw [addrFrom_cons]
      have hAd : addrFrom K N 1 (A ++ [d])
          = addrFrom K N 1 A + vertexWeight K N d (A.length + 1) := by
        rw [addrFrom_append, show 1 + A.length = A.length + 1 by omega, addrFrom_cons,
          addrFrom_nil]
        omega
      have hbal : addrFrom K N 1 A + addrFrom K N (A.length + 2) (d :: rest')
            + vertexWeight K N q (A.length + 1)
          = (addrFrom K N 1 (A ++ [d]) + addrFrom K N (A.length + 3) rest')
            + vertexWeight K N q (A.length + 2) := by
        rw [hEd, hAd, hqd]
        ring
      have haddr : add64
            (addrFrom K N 1 A + addrFrom K N (A.length + 2) (d :: rest'))
            (sub64 (vertexWeight K N q (A.length + 1))
              (vertexWeight K N q (A.length + 2)))
          = addrFrom K N 1 (A ++ [d]) + addrFrom K N (A.length + 3) rest' := by
        rw [add64_sub64 _ _ _ (by omega)
          (by
            have hofR' : ofBits (d :: rest') < 2 ^ K := hofR
            omega)
          (by omega)]
        omega
      rw [haddr] at hmem
      have hstate : (A ++ [d]).length + 2 = A.length + 3 := by simp
      have hstate2 : (A ++ [d]).length + 1 = A.length + 1 + 1 := by simp
      have hIH := ih (K - (q + 1)) (by omega) (q + 1) rfl (A ++ [d]) rest' (front ++ [d])
        (by rw [hsplit]; simp)
        (by simp [hflen])
        (by simp at hlen ⊢; omega)
        (by
          have : (A ++ [d]) ++ rest' = A ++ (d :: rest') := by simp
          rw [this]
          exact hsort)
        (by
          intro a ha
          rcases List.mem_append.mp ha with h | h
          · have := hAq a h
            omega
          · rw [List.mem_singleton] at h
            omega)
        (by
          intro r hr
          have hr' : r ∈ rest' := List.mem_of_mem_take hr
          have := hdrest r hr'
          omega)
        (by omega)
        q1 J (by rw [hstate, hstate2]; exact hmem)
      obtain ⟨C', D', hCD, hq1, hq1K, hC, hD, hJ⟩ := hIH
      refine ⟨d :: C', D', by rw [hCD]; rfl, by omega, hq1K, ?_, hD, ?_⟩
      · intro c hc
        rcases List.mem_cons.mp hc with h | h
        · omega
        · exact hC c h
      · rw [hJ]
        congr 1
        simp
    · rw [dif_neg h1] at hmem
      by_cases h2 : q < K
      · rw [dif_pos h2] at hmem
        -- all of rest is strictly above the cursor
        have hrest_gt : ∀ r ∈ rest, q < r := by
          cases rest with
          | nil => intro r hr; exact absurd hr (List.not_mem_nil r)
          | cons d rest' =>
            have he_lt : A.length + 1 < N := by
              simp at hlen
              omega
            have hocc : occupationIndex rep (A.length + 1) = d := by
              unfold occupationIndex
              rw [hsplit, List.getD_append_right _ _ _ _ (by omega), hflen]
              simp
            have hqd : q ≠ d := by
              intro h
              exact h1 ⟨he_lt, by rw [hocc, h]⟩
            have hqle : q ≤ d := hqrest d (by simp)
            intro r hr
            rcases List.mem_cons.mp hr with h | h
            · omega
            · have := (List.pairwise_cons.mp hsortR).1 r h
              omega
        rcases List.mem_cons.mp hmem with heq | hmem'
        · -- the emitted pair
          have hq1 : q1 = q := congrArg Prod.fst heq
          have hWq := vertexWeight_le_two_pow K N q (A.length + 1) hNK
          have h2q : (2 : Nat) ^ q ≤ 2 ^ K := Nat.pow_le_pow_right (by norm_num) (by omega)
          have hJ : J = addrFrom K N 1 A + addrFrom K N (A.length + 2) rest
              + vertexWeight K N q (A.length + 1) := by
            have := congrArg Prod.snd heq
            dsimp at this
            rw [this, add64_eq _ _ (by omega)]
          refine ⟨[], rest, by simp, by omega, by omega, ?_, ?_, ?_⟩
          · intro c hc
            exact absurd hc (List.not_mem_nil c)
          · intro d hd
            rw [hq1]
            exact hrest_gt d hd
          · rw [hJ, hq1]
            have : A ++ [] ++ [q] ++ rest = A ++ ([q] ++ rest) := by simp
            rw [this, addrFrom_append, show 1 + A.length = A.length + 1 by omega,
              List.singleton_append, addrFrom_cons]
            have hidx : A.length + 1 + 1 = A.length + 2 := by omega
            rw [hidx]
            ring
        · -- recurse at the next orbital
          have hIH := ih (K - (q + 1)) (by omega) (q + 1) rfl A rest front hsplit hflen
            hlen hsort
            (fun a ha => by
              have := hAq a ha
              omega)
            (fun r hr => by
              have := hrest_gt r (List.mem_of_mem_take hr)
              omega)
            (by omega)
            q1 J hmem'
          obtain ⟨C, D, hCD, hq1, hq1K, hC, hD, hJ⟩ := hIH
          exact ⟨C, D, hCD, by omega, hq1K, hC, hD, hJ⟩
      · rw [dif_neg h2] at hmem
        exact absurd hmem (List.not_mem_nil _)

theorem list_split_at_getD (d : Nat) :
    ∀ (l : List Nat) (n : Nat), n < l.length →
      ∃ A rest, l = A ++ l.getD n d :: rest ∧ A.length = n := by
  intro l
  induction l with
  | nil =>
    intro n h
    simp at h
  | cons a l ih =>
    intro n h
    cases n with
    | zero => exact ⟨[], l, by simp, rfl⟩
    | succ n =>
      obtain ⟨A, rest, hl, hA⟩ := ih n (by simp at h; omega)
      refine ⟨a :: A, rest, ?_, by simp [hA]⟩
      rw [List.getD_cons_succ, List.cons_append, ← hl]

theorem dociRowCouplings_mem (K N : Nat) (hNK : N ≤ K) (hK : K ≤ 60) (rep : Nat)
    (hrepK : rep < 2 ^ K) (hrepN : popCount rep = N) :
    ∀ t ∈ dociRowCouplings K N rep (getAddress K N rep),
      getAddress K N rep < t.2.2 ∧ t.2.2 < Nat.choose K N := by
  intro t ht
  unfold dociRowCouplings at ht
  rw [List.mem_flatMap] at ht
  obtain ⟨e1, he1, hmem⟩ := ht
  rw [List.mem_range] at he1
  rw [List.mem_map] at hmem
  obtain ⟨qJ, hqJ, hteq⟩ := hmem
  obtain ⟨q1, J⟩ := qJ
  -- decompose the occupation list around the annihilated electron
  have hlenqs : (bitIndices rep).length = N := by
    rw [← popCount_eq_length_bitIndices, hrepN]
  obtain ⟨A, rest, hqs, hA⟩ := list_split_at_getD 0 (bitIndices rep) e1 (by omega)
  subst hA
  have hp_def : occupationIndex rep A.length = (bitIndices rep).getD A.length 0 := rfl
  have hsq : List.Pairwise (· < ·) (bitIndices rep) := bitIndices_sorted rep
  rw [hqs] at hsq
  have hAp : ∀ a ∈ A, a < (bitIndices rep).getD A.length 0 := by
    intro a ha
    exact (List.pairwise_append.mp hsq).2.2 a ha _ (List.mem_cons_self _ _)
  have hprest : ∀ r ∈ rest, (bitIndices rep).getD A.length 0 < r := by
    intro r hr
    exact (List.pairwise_cons.mp (List.pairwise_append.mp hsq).2.1).1 r hr
  have hsortAR : List.Pairwise (· < ·) (A ++ rest) := by
    refine List.Pairwise.sublist ?_ hsq
    exact List.Sublist.append_left (List.sublist_cons_self _ _) A
  have hpK : (bitIndices rep).getD A.length 0 < K := by
    refine bitIndices_mem_lt K rep hrepK _ ?_
    have hmm : (bitIndices rep).getD A.length 0
        ∈ A ++ (bitIndices rep).getD A.length 0 :: rest :=
      List.mem_append_right _ (List.mem_cons_self _ _)
    rw [← hqs] at hmm
    exact hmm
  have hlenrest : A.length + 1 + rest.length = N := by
    have := congrArg List.length hqs
    simp at this
    omega
  -- the exact starting address of the shift loop
  have hIlt : addrFrom K N 1 (bitIndices rep) < Nat.choose K N :=
    addrFrom_bitIndices_lt_dim K N rep hNK hrepK hrepN
  have hdimw : Nat.choose K N < word64 := dim_lt_word64 K N hK
  have hI : getAddress K N rep = addrFrom K N 1 (bitIndices rep) :=
    getAddress_eq_addrFrom K N rep (by omega)
  have hIdecomp : addrFrom K N 1 (bitIndices rep)
      = addrFrom K N 1 A
        + vertexWeight K N ((bitIndices rep).getD A.length 0) (A.length + 1)
        + addrFrom K N (A.length + 2) rest := by
    conv_lhs => rw [hqs]
    rw [addrFrom_append, show 1 + A.length = A.length + 1 by omega, addrFrom_cons,
      show A.length + 1 + 1 = A.length + 2 by omega]
    ring
  have hstart : sub64 (getAddress K N rep)
        (vertexWeight K N ((bitIndices rep).getD A.length 0) (A.length + 1))
      = addrFrom K N 1 A + addrFrom K N (A.length + 2) rest := by
    rw [hI, sub64_eq _ _ (by omega) (by omega)]
    omega
  rw [hp_def] at hqJ
  rw [hstart] at hqJ
  have hchar := dociCouplingLoop_char K N hNK hK rep hrepK
    (K - ((bitIndices rep).getD A.length 0 + 1)) ((bitIndices rep).getD A.length 0 + 1)
    rfl A rest (A ++ [(bitIndices rep).getD A.length 0])
    (by
      conv_lhs => rw [hqs]
      simp)
    (by simp)
    hlenrest
    hsortAR
    (by
      intro a ha
      have := hAp a ha
      omega)
    (by
      intro r hr
      have := hprest r (List.mem_of_mem_take hr)
      omega)
    (by omega)
    q1 J hqJ
  obtain ⟨C, D, hCD, hq1ge, hq1K, hC, hD, hJ⟩ := hchar
  -- the emitted address is the address of a valid higher representation
  have hrestK : ∀ r ∈ rest, r < K := by
    intro r hr
    refine bitIndices_mem_lt K rep hrepK r ?_
    have hmm : r ∈ A ++ (bitIndices rep).getD A.length 0 :: rest :=
      List.mem_append_right _ (List.mem_cons_of_mem _ hr)
    rw [← hqs] at hmm
    exact hmm
  have hAK : ∀ a ∈ A, a < K := by
    intro a ha
    have h1 := hAp a ha
    omega
  have hsortCD : List.Pairwise (· < ·) (C ++ D) := by
    rw [← hCD]
    exact (List.pairwise_append.mp hsortAR).2.1
  have hsortC : List.Pairwise (· < ·) C := (List.pairwise_append.mp hsortCD).1
  have hsortD : List.Pairwise (· < ·) D := (List.pairwise_append.mp hsortCD).2.1
  have hCDlt : ∀ c ∈ C, ∀ e ∈ D, c < e := (List.pairwise_append.mp hsortCD).2.2
  have hmemC : ∀ c ∈ C, c ∈ rest := by
    intro c hc
    rw [hCD]
    exact List.mem_append_left _ hc
  have hmemD : ∀ e ∈ D, e ∈ rest := by
    intro e he
    rw [hCD]
    exact List.mem_append_right _ he
  have hLsort : List.Pairwise (· < ·) (A ++ C ++ [q1] ++ D) := by
    have hinner : List.Pairwise (· < ·) (C ++ [q1] ++ D) := by
      rw [List.append_assoc, List.singleton_append]
      rw [List.pairwise_append]
      refine ⟨hsortC, List.pairwise_cons.mpr ⟨hD, hsortD⟩, ?_⟩
      intro c hc b hb
      rcases List.mem_cons.mp hb with h | h
      · rw [h]
        exact hC c hc
      · exact hCDlt c hc b h
    rw [show A ++ C ++ [q1] ++ D = A ++ (C ++ [q1] ++ D) from by simp,
      List.pairwise_append]
    refine ⟨(List.pairwise_append.mp hsortAR).1, hinner, ?_⟩
    intro a ha b hb
    have haA : a < (bitIndices rep).getD A.length 0 := hAp a ha
    rcases List.mem_append.mp hb with h | h
    · rcases List.mem_append.mp h with h2 | h2
      · have := hprest b (hmemC b h2)
        omega
      · rw [List.mem_singleton] at h2
        omega
    · have := hprest b (hmemD b h)
      omega
  have hLlen : (A ++ C ++ [q1] ++ D).length = N := by
    have h1 := congrArg List.length hCD
    simp at h1 ⊢
    omega
  have hLK : ∀ a ∈ A ++ C ++ [q1] ++ D, a < K := by
    intro a ha
    rcases List.mem_append.mp ha with h | h
    · rcases List.mem_append.mp h with h2 | h2
      · rcases List.mem_append.mp h2 with h3 | h3
        · exact hAK a h3
        · exact hrestK a (hmemC a h3)
      · rw [List.mem_singleton] at h2
        omega
    · exact hrestK a (hmemD a h)
  have hJdim : J < Nat.choose K N := by
    rw [hJ]
    exact addrFrom_sorted_lt_dim K N hNK _ hLlen hLsort hLK
  -- compare with the row address through the moved representation
  have hrep2K : ofBits (A ++ C ++ [q1] ++ D) < 2 ^ K := ofBits_lt_two_pow K _ hLK
  have hrep2bits : bitIndices (ofBits (A ++ C ++ [q1] ++ D)) = A ++ C ++ [q1] ++ D :=
    bitIndices_ofBits _ hLsort
  have hrep2pc : popCount (ofBits (A ++ C ++ [q1] ++ D)) = N := by
    rw [popCount_eq_length_bitIndices, hrep2bits, hLlen]
  have hrep2addr : getAddress K N (ofBits (A ++ C ++ [q1] ++ D)) = J := by
    rw [getAddress_eq_addrFrom K N _ (by rw [hrep2bits, ← hJ]; omega), hrep2bits, hJ]
  have hpq1 : (2 : Nat) ^ ((bitIndices rep).getD A.length 0) < 2 ^ q1 := by
    refine Nat.pow_lt_pow_right (by norm_num) ?_
    omega
  have hreplt : rep < ofBits (A ++ C ++ [q1] ++ D) := by
    have h1 : rep = ofBits (bitIndices rep) := (ofBits_bitIndices rep).symm
    conv_lhs => rw [h1, hqs, hCD]
    rw [ofBits_sorted_eq_sum _ (by rw [hCD] at hsq; exact hsq),
      ofBits_sorted_eq_sum _ hLsort]
    simp only [List.map_append, List.sum_append, List.map_cons, List.sum_cons,
      List.map_nil, List.sum_nil]
    omega
  have hmono := getAddress_strict_mono K N rep _ hNK hK hrepK hrepN hrep2K hrep2pc hreplt
  rw [hrep2addr] at hmono
  rw [← hteq]
  exact ⟨hmono, hJdim⟩

theorem applyMatUpdates_apply (l : List (Nat × Nat × ℚ)) :
    ∀ (M : Mat) (a b : Nat),
      applyMatUpdates M l a b
        = M a b + (l.map (fun t => if a = t.1 ∧ b = t.2.1 then t.2.2 else 0)).sum := by
  induction l with
  | nil =>
    intro M a b
    unfold applyMatUpdates
    simp
  | cons t ts ih =>
    intro M a b
    unfold applyMatUpdates at ih ⊢
    rw [List.foldl_cons, ih]
    simp only [List.map_cons, List.sum_cons]
    by_cases h : a = t.1 ∧ b = t.2.1
    · rw [if_pos h, if_pos h]
      ring
    · rw [if_neg h, if_neg h]
      ring

theorem applyVecUpdates_apply (l : List (Nat × ℚ)) :
    ∀ (v : Vec) (a : Nat),
      applyVecUpdates v l a
        = v a + (l.map (fun t => if a = t.1 then t.2 else 0)).sum := by
  induction l with
  | nil =>
    intro v a
    unfold applyVecUpdates
    simp
  | cons t ts ih =>
    intro v a
    unfold applyVecUpdates at ih ⊢
    rw [List.foldl_cons, ih]
    simp only [List.map_cons, List.sum_cons]
    by_cases h : a = t.1
    · rw [if_pos h, if_pos h]
      ring
    · rw [if_neg h, if_neg h]
      ring

theorem map_sum_flatMap {α β : Type} (g : β → ℚ) (f : α → List β) (xs : List α) :
    ((xs.flatMap f).map g).sum = (xs.map (fun x => ((f x).map g).sum)).sum := by
  induction xs with
  | nil => simp
  | cons x xs ih =>
    rw [List.flatMap_cons, List.map_append, List.sum_append, ih, List.map_cons,
      List.sum_cons]

theorem list_range_sum_eq (n : Nat) (f : Nat → ℚ) :
    ((List.range n).map f).sum = ∑ i ∈ Finset.range n, f i := by
  induction n with
  | zero => simp
  | succ n ih =>
    rw [List.range_succ, List.map_append, List.sum_append, Finset.sum_range_succ, ih]
    simp

theorem sum_range_single (n I : Nat) (f : Nat → ℚ) (h : ∀ j, j ≠ I → f j = 0) :
    ((List.range n).map f).sum = if I < n then f I else 0 := by
  induction n with
  | zero => simp
  | succ n ih =>
    rw [List.range_succ, List.map_append, List.sum_append, ih]
    simp only [List.map_cons, List.map_nil, List.sum_cons, List.sum_nil]
    by_cases hn : n = I
    · subst hn
      rw [if_neg (by omega), if_pos (by omega)]
      ring
    · rw [h n hn]
      by_cases hI : I < n
      · rw [if_pos hI, if_pos (by omega)]
        ring
      · rw [if_neg hI, if_neg (by omega)]
        ring

theorem ite_and_swap (p q : Prop) [Decidable (p ∧ q)] [Decidable (q ∧ p)] (x y : ℚ) :
    (if p ∧ q then x else y) = if q ∧ p then x else y := by
  by_cases h : p ∧ q
  · rw [if_pos h, if_pos ⟨h.2, h.1⟩]
  · rw [if_neg h, if_neg fun hc => h ⟨hc.2, hc.1⟩]

theorem ite_map_sum {α : Type} (P : Prop) [Decidable P] (l : List α) (f : α → ℚ) :
    (if P then (l.map f).sum else 0) = (l.map (fun t => if P then f t else 0)).sum := by
  by_cases h : P
  · rw [if_pos h]
    refine congrArg List.sum (List.map_congr_left ?_)
    intro t _
    rw [if_pos h]
  · rw [if_neg h]
    symm
    refine List.sum_eq_zero ?_
    intro y hy
    rw [List.mem_map] at hy
    obtain ⟨t, _, ht⟩ := hy
    rw [← ht, if_neg h]

theorem list_map_add_sum {α : Type} (l : List α) (f g : α → ℚ) :
    (l.map (fun t => f t + g t)).sum = (l.map f).sum + (l.map g).sum := by
  induction l with
  | nil => simp
  | cons a l ih =>
    simp only [List.map_cons, List.sum_cons, ih]
    ring

theorem sum_range_list_swap {α : Type} (n : Nat) (l : List α) (F : α → Nat → ℚ)
    (x : Nat → ℚ) :
    ∑ c ∈ Finset.range n, ((l.map (fun t => F t c)).sum * x c)
      = (l.map (fun t => ∑ c ∈ Finset.range n, F t c * x c)).sum := by
  induction l with
  | nil => simp
  | cons t ts ih =>
    simp only [List.map_cons, List.sum_cons]
    rw [← ih, ← Finset.sum_add_distrib]
    refine Finset.sum_congr rfl ?_
    intro c _
    ring

theorem sum_range_ite_and (n J : Nat) (P : Prop) [Decidable P] (g : ℚ)
    (x : Nat → ℚ) :
    ∑ c ∈ Finset.range n, (if P ∧ c = J then g else 0) * x c
      = if P then (if J < n then g * x J else 0) else 0 := by
  by_cases hP : P
  · rw [if_pos hP]
    calc ∑ c ∈ Finset.range n, (if P ∧ c = J then g else 0) * x c
        = ∑ c ∈ Finset.range n, (if c = J then g * x c else 0) := by
          refine Finset.sum_congr rfl ?_
          intro c _
          by_cases h : c = J
          · rw [if_pos ⟨hP, h⟩, if_pos h]
          · rw [if_neg (fun hc => h hc.2), if_neg h]
            ring
    _ = if J ∈ Finset.range n then g * x J else 0 := Finset.sum_ite_eq' _ _ _
    _ = if J < n then g * x J else 0 := by simp [Finset.mem_range]
  · rw [if_neg hP]
    refine Finset.sum_eq_zero ?_
    intro c _
    rw [if_neg (fun hc => hP hc.1)]
    ring

theorem constructHamiltonianDOCICore_apply (K N : Nat) (par : HamiltonianParameters)
    (a b : Nat) :
    constructHamiltonianDOCICore K N par a b
      = ((List.range (calculateDimension K N)).map
          (fun I => ((dociRowTriples K N par I).map
            (fun t => if a = t.1 ∧ b = t.2.1 then t.2.2 else 0)).sum)).sum := by
  unfold constructHamiltonianDOCICore
  rw [applyMatUpdates_apply, map_sum_flatMap]
  simp

theorem matrixVectorProductDOCICore_apply (K N : Nat) (par : HamiltonianParameters)
    (x diagonal : Vec) (r : Nat) :
    matrixVectorProductDOCICore K N par x diagonal r
      = diagonal r * x r + ((List.range (calculateDimension K N)).map
          (fun I => ((dociRowMatvecUpds K N par x I).map
            (fun t => if r = t.1 then t.2 else 0)).sum)).sum := by
  unfold matrixVectorProductDOCICore
  rw [applyVecUpdates_apply, map_sum_flatMap]

theorem dociRowTriples_sum (K N : Nat) (par : HamiltonianParameters) (I a b : Nat) :
    ((dociRowTriples K N par I).map
        (fun t => if a = t.1 ∧ b = t.2.1 then t.2.2 else 0)).sum
      = (if a = I ∧ b = I then calculateDiagonalDOCICore K N par I else 0)
        + ((dociRowCouplings K N (onvAt K N I) I).map
            (fun t => (if a = I ∧ b = t.2.2 then par.g t.1 t.2.1 t.1 t.2.1 else 0)
              + (if a = t.2.2 ∧ b = I then par.g t.1 t.2.1 t.1 t.2.1 else 0))).sum := by
  unfold dociRowTriples
  rw [List.map_cons, List.sum_cons]
  congr 1
  rw [map_sum_flatMap]
  refine congrArg List.sum (List.map_congr_left ?_)
  intro t ht
  simp only [List.map_cons, List.map_nil, List.sum_cons, List.sum_nil]
  ring

theorem dociRowMatvecUpds_sum (K N : Nat) (par : HamiltonianParameters) (x : Vec)
    (I r : Nat) :
    ((dociRowMatvecUpds K N par x I).map (fun t => if r = t.1 then t.2 else 0)).sum
      = ((dociRowCouplings K N (onvAt K N I) I).map
          (fun t => if r = t.2.2 then par.g t.1 t.2.1 t.1 t.2.1 * x I else 0)).sum
        + (if r = I then ((dociRowCouplings K N (onvAt K N I) I).map
            (fun t => par.g t.1 t.2.1 t.1 t.2.1 * x t.2.2)).sum else 0) := by
  unfold dociRowMatvecUpds
  rw [List.map_append, List.sum_append]
  congr 1
  · rw [List.map_map]
    rfl
  · simp only [List.map_cons, List.map_nil, List.sum_cons, List.sum_nil]
    ring

theorem dociRowCouplings_at_row (K N I : Nat) (hNK : N ≤ K) (hK : K ≤ 60)
    (hI : I < Nat.choose K N) :
    ∀ t ∈ dociRowCouplings K N (onvAt K N I) I, I < t.2.2 ∧ t.2.2 < Nat.choose K N := by
  obtain ⟨h1, h2, h3⟩ := onvAt_valid K N hNK hK I hI
  intro t ht
  have h := dociRowCouplings_mem K N hNK hK (onvAt K N I) h1 h2 t (by rw [h3]; exact ht)
  rw [h3] at h
  exact h

/-- Claim C3: for Hamiltonian parameters whose orbital count matches the Fock
space, `DOCI::constructHamiltonian` succeeds and returns a symmetric matrix
(`H = Hᵀ`), and every diagonal entry `H(I, I)` with `I < dim` equals entry `I`
of the vector returned by `DOCI::calculateDiagonal`. -/
theorem doci_matrix_symmetric_diagonal (K N : Nat) (par : HamiltonianParameters)
    (hNK : N ≤ K) (hK : K ≤ 60) (hpar : par.K = K) :
    ∃ H d, constructHamiltonianDOCI K N par = Except.ok H ∧
      calculateDiagonalDOCI K N par = Except.ok d ∧
      (∀ a b, H a b = H b a) ∧
      (∀ I, I < calculateDimension K N → H I I = d I) := by
  refine ⟨constructHamiltonianDOCICore K N par, calculateDiagonalDOCICore K N par,
    by unfold constructHamiltonianDOCI; rw [if_pos hpar],
    by unfold calculateDiagonalDOCI; rw [if_pos hpar], ?_, ?_⟩
  · -- symmetry
    intro a b
    rw [constructHamiltonianDOCICore_apply, constructHamiltonianDOCICore_apply]
    refine congrArg List.sum (List.map_congr_left ?_)
    intro I hI
    rw [dociRowTriples_sum, dociRowTriples_sum]
    congr 1
    · exact ite_and_swap (a = I) (b = I) _ _
    · refine congrArg List.sum (List.map_congr_left ?_)
      intro t ht
      rw [ite_and_swap (a = I) (b = t.2.2) _ _, ite_and_swap (a = t.2.2) (b = I) _ _]
      ring
  · -- diagonal
    intro I hI
    have hdim : calculateDimension K N = Nat.choose K N := rfl
    rw [constructHamiltonianDOCICore_apply]
    have hrow : ∀ I', ((dociRowTriples K N par I').map
          (fun t => if I = t.1 ∧ I = t.2.1 then t.2.2 else 0)).sum
        = if I' = I then calculateDiagonalDOCICore K N par I else 0 := by
      intro I'
      rw [dociRowTriples_sum]
      by_cases hII : I' = I
      · subst hII
        rw [if_pos ⟨rfl, rfl⟩, if_pos rfl]
        have hz : ((dociRowCouplings K N (onvAt K N I') I').map
            (fun t => (if I' = I' ∧ I' = t.2.2 then par.g t.1 t.2.1 t.1 t.2.1 else 0)
              + (if I' = t.2.2 ∧ I' = I' then par.g t.1 t.2.1 t.1 t.2.1 else 0))).sum
            = 0 := by
          refine List.sum_eq_zero ?_
          intro y hy
          rw [List.mem_map] at hy
          obtain ⟨t, ht, hy⟩ := hy
          have hJ := (dociRowCouplings_at_row K N I' hNK hK (by omega) t ht).1
          rw [← hy, if_neg (fun hc => by omega), if_neg (fun hc => by omega)]
          ring
        rw [hz]
        ring
      · rw [if_neg (fun hc => hII (by omega))]
        have hz : ((dociRowCouplings K N (onvAt K N I') I').map
            (fun t => (if I = I' ∧ I = t.2.2 then par.g t.1 t.2.1 t.1 t.2.1 else 0)
              + (if I = t.2.2 ∧ I = I' then par.g t.1 t.2.1 t.1 t.2.1 else 0))).sum
            = 0 := by
          refine List.sum_eq_zero ?_
          intro y hy
          rw [List.mem_map] at hy
          obtain ⟨t, ht, hy⟩ := hy
          rw [← hy, if_neg (fun hc => hII (by omega)), if_neg (fun hc => hII (by omega))]
          ring
        rw [hz, if_neg hII]
        ring
    rw [List.map_congr_left (fun I' _ => hrow I'),
      sum_range_single _ I _ (fun j hj => by rw [if_neg hj]), if_pos hI, if_pos rfl]

theorem doci_row_matvec_balance (K N : Nat) (par : HamiltonianParameters) (x : Vec)
    (hNK : N ≤ K) (hK : K ≤ 60) (r I : Nat) (hI : I < Nat.choose K N) :
    ∑ c ∈ Finset.range (calculateDimension K N),
        ((dociRowTriples K N par I).map
          (fun t => if r = t.1 ∧ c = t.2.1 then t.2.2 else 0)).sum * x c
      = ((dociRowMatvecUpds K N par x I).map (fun t => if r = t.1 then t.2 else 0)).sum
        + (if r = I then calculateDiagonalDOCICore K N par I * x I else 0) := by
  have hdim : calculateDimension K N = Nat.choose K N := rfl
  have hsplit1 : ∑ c ∈ Finset.range (calculateDimension K N),
      ((dociRowTriples K N par I).map
        (fun t => if r = t.1 ∧ c = t.2.1 then t.2.2 else 0)).sum * x c
      = (∑ c ∈ Finset.range (calculateDimension K N),
          (if r = I ∧ c = I then calculateDiagonalDOCICore K N par I else 0) * x c)
        + ∑ c ∈ Finset.range (calculateDimension K N),
            ((dociRowCouplings K N (onvAt K N I) I).map
              (fun t => (if r = I ∧ c = t.2.2 then par.g t.1 t.2.1 t.1 t.2.1 else 0)
                + (if r = t.2.2 ∧ c = I then par.g t.1 t.2.1 t.1 t.2.1 else 0))).sum
              * x c := by
    rw [← Finset.sum_add_distrib]
    refine Finset.sum_congr rfl ?_
    intro c _
    rw [dociRowTriples_sum]
    ring
  rw [hsplit1]
  have hhead : ∑ c ∈ Finset.range (calculateDimension K N),
      (if r = I ∧ c = I then calculateDiagonalDOCICore K N par I else 0) * x c
      = if r = I then calculateDiagonalDOCICore K N par I * x I else 0 := by
    rw [sum_range_ite_and]
    by_cases hrI : r = I
    · rw [if_pos hrI, if_pos hrI, if_pos (show I < calculateDimension K N from by omega)]
    · rw [if_neg hrI, if_neg hrI]
  have hcoup : ∑ c ∈ Finset.range (calculateDimension K N),
      ((dociRowCouplings K N (onvAt K N I) I).map
        (fun t => (if r = I ∧ c = t.2.2 then par.g t.1 t.2.1 t.1 t.2.1 else 0)
          + (if r = t.2.2 ∧ c = I then par.g t.1 t.2.1 t.1 t.2.1 else 0))).sum * x c
      = ((dociRowCouplings K N (onvAt K N I) I).map
          (fun t => (if r = I then par.g t.1 t.2.1 t.1 t.2.1 * x t.2.2 else 0)
            + (if r = t.2.2 then par.g t.1 t.2.1 t.1 t.2.1 * x I else 0))).sum := by
    rw [sum_range_list_swap]
    refine congrArg List.sum (List.map_congr_left ?_)
    intro t ht
    have hJ := (dociRowCouplings_at_row K N I hNK hK hI t ht).2
    have hsum : ∑ c ∈ Finset.range (calculateDimension K N),
        ((if r = I ∧ c = t.2.2 then par.g t.1 t.2.1 t.1 t.2.1 else 0)
          + (if r = t.2.2 ∧ c = I then par.g t.1 t.2.1 t.1 t.2.1 else 0)) * x c
        = (∑ c ∈ Finset.range (calculateDimension K N),
            (if r = I ∧ c = t.2.2 then par.g t.1 t.2.1 t.1 t.2.1 else 0) * x c)
          + ∑ c ∈ Finset.range (calculateDimension K N),
              (if r = t.2.2 ∧ c = I then par.g t.1 t.2.1 t.1 t.2.1 else 0) * x c := by
      rw [← Finset.sum_add_distrib]
      refine Finset.sum_congr rfl ?_
      intro c _
      ring
    rw [hsum, sum_range_ite_and, sum_range_ite_and,
      if_pos (show t.2.2 < calculateDimension K N from by omega),
      if_pos (show I < calculateDimension K N from by omega)]
  rw [hhead, hcoup, list_map_add_sum, dociRowMatvecUpds_sum, ite_map_sum]
  ring

/-- Claim C2: for Hamiltonian parameters whose orbital count matches the Fock
space and any coefficient vector, `DOCI::matrixVectorProduct` applied with the
diagonal returned by `DOCI::calculateDiagonal` succeeds and agrees on every
address below the dimension with the explicit matrix-vector product of the
matrix returned by `DOCI::constructHamiltonian`. -/
theorem doci_matvec_equals_matrix (K N : Nat) (par : HamiltonianParameters) (x : Vec)
    (hNK : N ≤ K) (hK : K ≤ 60) (hpar : par.K = K) :
    ∃ H d v, constructHamiltonianDOCI K N par = Except.ok H ∧
      calculateDiagonalDOCI K N par = Except.ok d ∧
      matrixVectorProductDOCI K N par x d = Except.ok v ∧
      ∀ r, r < calculateDimension K N →
        v r = ∑ c ∈ Finset.range (calculateDimension K N), H r c * x c := by
  refine ⟨constructHamiltonianDOCICore K N par, calculateDiagonalDOCICore K N par,
    matrixVectorProductDOCICore K N par x (calculateDiagonalDOCICore K N par),
    by unfold constructHamiltonianDOCI; rw [if_pos hpar],
    by unfold calculateDiagonalDOCI; rw [if_pos hpar],
    by unfold matrixVectorProductDOCI; rw [if_pos hpar], ?_⟩
  intro r hr
  have hdim : calculateDimension K N = Nat.choose K N := rfl
  rw [matrixVectorProductDOCICore_apply]
  have hH : ∀ c, constructHamiltonianDOCICore K N par r c
      = ∑ I ∈ Finset.range (calculateDimension K N),
          ((dociRowTriples K N par I).map
            (fun t => if r = t.1 ∧ c = t.2.1 then t.2.2 else 0)).sum := by
    intro c
    rw [constructHamiltonianDOCICore_apply, list_range_sum_eq]
  have hswap : ∑ c ∈ Finset.range (calculateDimension K N),
      constructHamiltonianDOCICore K N par r c * x c
      = ∑ I ∈ Finset.range (calculateDimension K N),
          ∑ c ∈ Finset.range (calculateDimension K N),
            ((dociRowTriples K N par I).map
              (fun t => if r = t.1 ∧ c = t.2.1 then t.2.2 else 0)).sum * x c := by
    calc ∑ c ∈ Finset.range (calculateDimension K N),
        constructHamiltonianDOCICore K N par r c * x c
        = ∑ c ∈ Finset.range (calculateDimension K N),
            ∑ I ∈ Finset.range (calculateDimension K N),
              ((dociRowTriples K N par I).map
                (fun t => if r = t.1 ∧ c = t.2.1 then t.2.2 else 0)).sum * x c := by
          refine Finset.sum_congr rfl ?_
          intro c _
          rw [hH c, Finset.sum_mul]
    _ = _ := Finset.sum_comm
  rw [hswap,
    Finset.sum_congr rfl (fun I hI => doci_row_matvec_balance K N par x hNK hK r I
      (by rw [← hdim]; exact Finset.mem_range.mp hI)),
    Finset.sum_add_distrib]
  have hsingle : ∑ I ∈ Finset.range (calculateDimension K N),
      (if r = I then calculateDiagonalDOCICore K N par I * x I else 0)
      = calculateDiagonalDOCICore K N par r * x r := by
    rw [Finset.sum_ite_eq, if_pos (Finset.mem_range.mpr hr)]
  rw [hsingle, list_range_sum_eq]
  ring

/-- Witness for claim C3 at `K = 4`, `N = 2` with constant two-electron
integrals `g = 1`. -/
theorem doci_matrix_symmetric_diagonal_witness :
    ((2 : Nat) ≤ 4 ∧ (4 : Nat) ≤ 60 ∧
      (⟨4, fun _ _ => 0, fun _ _ => 0, fun _ _ _ _ => 1, fun _ _ => 0⟩ :
        HamiltonianParameters).K = 4) ∧
    (∃ H d, constructHamiltonianDOCI 4 2
        ⟨4, fun _ _ => 0, fun _ _ => 0, fun _ _ _ _ => 1, fun _ _ => 0⟩ = Except.ok H ∧
      calculateDiagonalDOCI 4 2
        ⟨4, fun _ _ => 0, fun _ _ => 0, fun _ _ _ _ => 1, fun _ _ => 0⟩ = Except.ok d ∧
      (∀ a b, H a b = H b a) ∧
      (∀ I, I < calculateDimension 4 2 → H I I = d I)) :=
  ⟨⟨by norm_num, by norm_num, rfl⟩,
    doci_matrix_symmetric_diagonal 4 2 _ (by norm_num) (by norm_num) rfl⟩

/-- Witness for claim C2 at `K = 4`, `N = 2` with constant two-electron
integrals `g = 1` and the coefficient vector `x(n) = n + 1`. -/
theorem doci_matvec_equals_matrix_witness :
    ((2 : Nat) ≤ 4 ∧ (4 : Nat) ≤ 60 ∧
      (⟨4, fun _ _ => 0, fun _ _ => 0, fun _ _ _ _ => 1, fun _ _ => 0⟩ :
        HamiltonianParameters).K = 4) ∧
    (∃ H d v, constructHamiltonianDOCI 4 2
        ⟨4, fun _ _ => 0, fun _ _ => 0, fun _ _ _ _ => 1, fun _ _ => 0⟩ = Except.ok H ∧
      calculateDiagonalDOCI 4 2
        ⟨4, fun _ _ => 0, fun _ _ => 0, fun _ _ _ _ => 1, fun _ _ => 0⟩ = Except.ok d ∧
      matrixVectorProductDOCI 4 2
        ⟨4, fun _ _ => 0, fun _ _ => 0, fun _ _ _ _ => 1, fun _ _ => 0⟩
        (fun n => (n : ℚ) + 1) d = Except.ok v ∧
      ∀ r, r < calculateDimension 4 2 →
        v r = ∑ c ∈ Finset.range (calculateDimension 4 2),
          H r c * ((c : ℚ) + 1)) :=
  ⟨⟨by norm_num, by norm_num, rfl⟩,
    doci_matvec_equals_matrix 4 2 _ (fun n => (n : ℚ) + 1)
      (by norm_num) (by norm_num) rfl⟩

end GQCP
